import Mathlib

/-!
Verification of the robot-game command-language interpreter and simulation
engine (`src/utils/gameLogic.ts`).  The TypeScript source is shallowly
embedded: pure functions become Lean functions, the generator
`executeCommandsStepByStep` becomes a function returning the list of yielded
snapshots together with the generator's return value, thrown exceptions
become `Except` errors, and the general recursion of the macro expander is
made total with an explicit fuel parameter (`none` models a computation the
JavaScript engine would never finish).  JavaScript numbers are idealized as
exact integers (`Int`/`Nat`); none of the verified properties involve
floating-point rounding or overflow.
-/

set_option maxRecDepth 10000

/-! ## Basic data model (src/types/game.ts) -/

inductive Direction where
  | up
  | down
  | left
  | right
deriving DecidableEq

structure Position where
  x : Int
  y : Int
deriving DecidableEq

structure RobotState where
  position : Position
  direction : Direction
deriving DecidableEq

structure GameState where
  grid : List (List Char)
  robot : RobotState
  initialRobot : RobotState
  pointsCollected : Nat
  totalPoints : Nat
  isGameOver : Bool
  isWon : Bool
  message : String
deriving DecidableEq

/-! ## JavaScript string primitives used by the source -/

/-- Whitespace as matched by JavaScript `trim` and the regex class `\s`
(restricted to the characters that can appear in program text). -/
def isJsWs (c : Char) : Bool :=
  c = ' ' ∨ c = '\t' ∨ c = '\n' ∨ c = '\r' ∨ c = '\x0b' ∨ c = '\x0c'

/-- JavaScript `String.prototype.trim` on a character list. -/
def jsTrim (s : List Char) : List Char :=
  ((s.dropWhile isJsWs).reverse.dropWhile isJsWs).reverse

/-- JavaScript `String.prototype.split` with a single-character separator. -/
def splitOnChar (sep : Char) : List Char → List (List Char)
  | [] => [[]]
  | c :: cs =>
    if c = sep then
      [] :: splitOnChar sep cs
    else
      match splitOnChar sep cs with
      | [] => [[c]]
      | p :: ps => (c :: p) :: ps

def isDigitChar (c : Char) : Bool := '0' ≤ c ∧ c ≤ '9'

def isUpperAZ (c : Char) : Bool := 'A' ≤ c ∧ c ≤ 'Z'

def isLowerAZ (c : Char) : Bool := 'a' ≤ c ∧ c ≤ 'z'

def isHexDigit (c : Char) : Bool :=
  isDigitChar c ∨ ('a' ≤ c ∧ c ≤ 'f') ∨ ('A' ≤ c ∧ c ≤ 'F')

def digitVal (c : Char) : Nat := c.toNat - '0'.toNat

def hexVal (c : Char) : Nat :=
  if isDigitChar c then c.toNat - '0'.toNat
  else if 'a' ≤ c ∧ c ≤ 'f' then c.toNat - 'a'.toNat + 10
  else c.toNat - 'A'.toNat + 10

def readDigits (radix : Nat) (isDig : Char → Bool) (val : Char → Nat) :
    Nat → List Char → Nat
  | acc, [] => acc
  | acc, c :: cs =>
    if isDig c then readDigits radix isDig val (acc * radix + val c) cs else acc

/-- JavaScript `parseInt(s)` (radix unspecified): skips leading whitespace,
reads an optional sign, recognizes a `0x`/`0X` prefix as hexadecimal, then
parses the longest leading digit run, ignoring the rest of the string;
`none` models the `NaN` result. -/
def parseIntJS (s : List Char) : Option Int :=
  let t := s.dropWhile isJsWs
  let neg : Bool := t.head? = some '-'
  let t1 := if t.head? = some '-' ∨ t.head? = some '+' then t.drop 1 else t
  let mag : Option Nat :=
    match t1 with
    | '0' :: x :: rest =>
      if x = 'x' ∨ x = 'X' then
        match rest with
        | d :: _ =>
          if isHexDigit d then some (readDigits 16 isHexDigit hexVal 0 rest)
          else none
        | [] => none
      else
        some (readDigits 10 isDigitChar digitVal 0 ('0' :: x :: rest))
    | d :: _ =>
      if isDigitChar d then some (readDigits 10 isDigitChar digitVal 0 t1)
      else none
    | [] => none
  match mag with
  | none => none
  | some m => some (if neg then -(m : Int) else (m : Int))

/-! ## Function table and execution context -/

structure FunctionDef where
  name : Char
  params : List (List Char)
  body : List Char
deriving DecidableEq

inductive ArgValue where
  | num (n : Int)
  | str (s : List Char)
deriving DecidableEq

/-- JavaScript `Map.prototype.set`: replace the value of an existing key in
place, otherwise append the new entry. -/
def assocSet {κ α : Type} [DecidableEq κ] : List (κ × α) → κ → α → List (κ × α)
  | [], k, v => [(k, v)]
  | (k', v') :: rest, k, v =>
    if k' = k then (k, v) :: rest else (k', v') :: assocSet rest k v

structure ExecutionContext where
  functions : List (Char × FunctionDef)
  argValues : List (List Char × ArgValue)
deriving DecidableEq

/-! ## Expression evaluator (`evaluateExpression`)

The source function recurses on the `+`/`-`-split pieces of its input; the
recursion depth is bounded (a piece of a `+`-split contains no `+`, a piece
of a `-`-split below it contains neither operator), so a fuel parameter of
`length + 3` always suffices and the wrapper below is total. -/

/-- Test for the source regex `/^[A-Z]$/`. -/
def isSingleUpper : List Char → Bool
  | [c] => isUpperAZ c
  | _ => false

def evalE (argValues : List (List Char × ArgValue)) : Nat → List Char → Int
  | 0, _ => 0
  | fuel + 1, expr =>
    let e := jsTrim expr
    match parseIntJS e with
    | some n => n
    | none =>
      if isSingleUpper e then
        match argValues.lookup e with
        | some (ArgValue.num v) => v
        | _ => 0
      else if e.contains '+' then
        ((splitOnChar '+' e).map (fun p => evalE argValues fuel (jsTrim p))).sum
      else if e.contains '-' then
        match splitOnChar '-' e with
        | [a, b] =>
          evalE argValues fuel (jsTrim a) - evalE argValues fuel (jsTrim b)
        | _ => 0
      else 0

/-- `evaluateExpression(expr, context)` from the source; the fuel
`expr.length + 3` covers the (depth-bounded) recursion for every input. -/
def evaluateExpression (expr : List Char) (context : ExecutionContext) : Int :=
  evalE context.argValues (expr.length + 3) expr

/-! ## Definition parser (`parseFunctionsAdvanced`) -/

/-- The character class `[A-Z,]` of the definition regex. -/
def isParamChar (ch : Char) : Bool := isUpperAZ ch ∨ ch = ','

/-- The character class `[A-Z,\\s]` of the main-program filter regex. -/
def isFilterInner (ch : Char) : Bool := isUpperAZ ch ∨ ch = ',' ∨ isJsWs ch

/-- Per-line definition recognition: the source regexes
`/^([a-z])\(([A-Z,]+)\):(.+)$/` (tried first) and `/^([a-z]):(.+)$/`, applied
to the trimmed line.  The character class `[A-Z,]` excludes `)` and `:`, so
the greedy match is the maximal run. -/
def parseDefLine (l : List Char) : Option FunctionDef :=
  match l with
  | c :: c2 :: rest =>
    if c2 = '(' then
      if isLowerAZ c then
        let inner := rest.takeWhile isParamChar
        match rest.dropWhile isParamChar with
        | ')' :: ':' :: body =>
          if inner ≠ [] ∧ body ≠ [] then
            some ⟨c, (splitOnChar ',' inner).map jsTrim, body⟩
          else none
        | _ => none
      else none
    else if c2 = ':' then
      if isLowerAZ c ∧ rest ≠ [] then some ⟨c, [], rest⟩ else none
    else none
  | _ => none

/-- `parseFunctionsAdvanced(commandString)`: fold the recognized definition
lines into a function table, later definitions overwriting earlier ones. -/
def parseFunctionsAdvanced (commandString : String) : List (Char × FunctionDef) :=
  (splitOnChar '\n' commandString.toList).foldl
    (fun functions line =>
      match parseDefLine (jsTrim line) with
      | some fd => assocSet functions fd.name fd
      | none => functions)
    []

/-- The main-program filter regex
`/^([a-z])\s*(\([A-Z,\s]*\))?\s*:/` from `executeCommandsStepByStep`,
tested against the trimmed line (a match means the line is excluded from the
main program).  The inner class excludes `)` and `:`, so greedy matching with
backtracking reduces to this deterministic scan. -/
def filterMatches : List Char → Bool
  | [] => false
  | c :: rest =>
    if isLowerAZ c then
      match rest.dropWhile isJsWs with
      | '(' :: r2 =>
        (match r2.dropWhile isFilterInner with
         | ')' :: r4 => (r4.dropWhile isJsWs).head? = some ':'
         | _ => false)
      | r1 => r1.head? = some ':'
    else false

/-- The execution (non-definition) lines of a program, in order and
untrimmed, as selected by `executeCommandsStepByStep`. -/
def executionLines (commandString : String) : List (List Char) :=
  (splitOnChar '\n' commandString.toList).filter
    (fun line => filterMatches (jsTrim line) = false)

/-- `executionLines.join('')` from `executeCommandsStepByStep`. -/
def mainCommandsOf (commandString : String) : List Char :=
  (executionLines commandString).flatten

/-! ## Macro expander (`expandInstructions` / `expandFunctionCall`) -/

def depthErrMsg (maxDepth : Nat) : String :=
  "Maximum recursion depth (" ++ toString maxDepth ++ ") exceeded."

/-- Propagation of `none` (non-termination) and thrown errors through the
string concatenations of the expander. -/
def obind {E α β : Type} :
    Option (Except E α) → (α → Option (Except E β)) → Option (Except E β)
  | none, _ => none
  | some (Except.error e), _ => some (Except.error e)
  | some (Except.ok a), f => f a

def omap {E α β : Type} (f : α → β) :
    Option (Except E α) → Option (Except E β)
  | none => none
  | some (Except.error e) => some (Except.error e)
  | some (Except.ok a) => some (Except.ok (f a))

/-- The matching-parenthesis scan of `expandInstructions`: input is the text
after the opening `(` with the running count starting at 1; returns the
consumed characters (through the closing `)`, or everything if unclosed) and
the remainder. -/
def scanArgs : List Char → Nat → List Char × List Char
  | [], _ => ([], [])
  | x :: xs, n =>
    let n' := if x = '(' then n + 1 else if x = ')' then n - 1 else n
    if n' = 0 then ([x], xs)
    else
      let pr := scanArgs xs n'
      (x :: pr.1, pr.2)

/-- The regex `/^[0-9A-Z+\-]+$/` classifying an argument as numeric. -/
def isNumericString (a : List Char) : Bool :=
  a ≠ [] ∧ a.all (fun c => isDigitChar c ∨ isUpperAZ c ∨ c = '+' ∨ c = '-')

/-- Argument splitting in `expandFunctionCall`:
`argsStr ? argsStr.split(',').map(a => a.trim()) : []`. -/
def parseArgs (argsStr : List Char) : List (List Char) :=
  if argsStr = [] then [] else (splitOnChar ',' argsStr).map jsTrim

/-- The argument-binding loop of `expandFunctionCall`: walks the
parameter/argument pairs, evaluating every argument in the caller's context,
classifying it with `isNumericString`, extending the copied binding map, and
clearing the execute flag when a numeric value is `≤ 0`. -/
def bindLoop (ctx : ExecutionContext) :
    List (List Char × List Char) → List (List Char × ArgValue) → Bool →
    List (List Char × ArgValue) × Bool
  | [], acc, flag => (acc, flag)
  | (p, a) :: rest, acc, flag =>
    let numValue := evaluateExpression a ctx
    if isNumericString a then
      bindLoop ctx rest (assocSet acc p (ArgValue.num numValue))
        (if numValue ≤ 0 then false else flag)
    else
      bindLoop ctx rest (assocSet acc p (ArgValue.str a)) flag

/-- The non-recursive part of `expandFunctionCall`: depth check, function
lookup, argument binding and the non-positive-numeric guard.  `Except.ok
none` means the call contributes the empty string without expanding a body;
`Except.ok (some (body, ctx'))` asks for `body` to be expanded in `ctx'` at
`depth + 1`. -/
def callStep (ctx : ExecutionContext) (funcName : Char) (argsStr : List Char)
    (depth maxDepth : Nat) :
    Except String (Option (List Char × ExecutionContext)) :=
  if depth > maxDepth then Except.error (depthErrMsg maxDepth)
  else
    match ctx.functions.lookup funcName with
    | none => Except.ok none
    | some funcDef =>
      let pr := bindLoop ctx (funcDef.params.zip (parseArgs argsStr))
        ctx.argValues true
      if pr.2 = false then Except.ok none
      else Except.ok (some (funcDef.body, ⟨ctx.functions, pr.1⟩))

/-- `expandInstructions(instructions, context, depth, maxDepth)`.  Fuel is
consumed at every recursive character scan; the call logic is `callStep`
(the body of the source's `expandFunctionCall` up to its recursive call).
Note the source quirk on a trailing `f(`: `substring(i+2, j-1)` has its
endpoints swapped by JavaScript when the scan loop never runs, yielding the
one-character argument string `"("`. -/
def expandInstructions :
    Nat → List Char → ExecutionContext → Nat → Nat →
    Option (Except String (List Char))
  | _, [], _, _, _ => some (Except.ok [])
  | 0, _ :: _, _, _, _ => none
  | fuel + 1, c :: rest, ctx, depth, maxDepth =>
    if c = 's' ∨ c = 'l' ∨ c = 'r' then
      omap (fun t => c :: t) (expandInstructions fuel rest ctx depth maxDepth)
    else if isUpperAZ c then
      match ctx.argValues.lookup [c] with
      | some (ArgValue.str v) =>
        obind (expandInstructions fuel v ctx depth maxDepth) fun h =>
        obind (expandInstructions fuel rest ctx depth maxDepth) fun t =>
        some (Except.ok (h ++ t))
      | _ => expandInstructions fuel rest ctx depth maxDepth
    else if isLowerAZ c then
      match rest with
      | '(' :: afterParen =>
        let argsStr :=
          if afterParen = [] then ['('] else (scanArgs afterParen 1).1.dropLast
        let rest2 := (scanArgs afterParen 1).2
        match callStep ctx c argsStr depth maxDepth with
        | Except.error e => some (Except.error e)
        | Except.ok none => expandInstructions fuel rest2 ctx depth maxDepth
        | Except.ok (some bc) =>
          obind (expandInstructions fuel bc.1 bc.2 (depth + 1) maxDepth) fun h =>
          obind (expandInstructions fuel rest2 ctx depth maxDepth) fun t =>
          some (Except.ok (h ++ t))
      | _ =>
        match callStep ctx c [] depth maxDepth with
        | Except.error e => some (Except.error e)
        | Except.ok none => expandInstructions fuel rest ctx depth maxDepth
        | Except.ok (some bc) =>
          obind (expandInstructions fuel bc.1 bc.2 (depth + 1) maxDepth) fun h =>
          obind (expandInstructions fuel rest ctx depth maxDepth) fun t =>
          some (Except.ok (h ++ t))
    else
      expandInstructions fuel rest ctx depth maxDepth

/-- `expandFunctionCall(funcName, argsStr, context, depth, maxDepth)` as a
wrapper over `callStep` and `expandInstructions`. -/
def expandFunctionCall (fuel : Nat) (funcName : Char) (argsStr : List Char)
    (ctx : ExecutionContext) (depth maxDepth : Nat) :
    Option (Except String (List Char)) :=
  match callStep ctx funcName argsStr depth maxDepth with
  | Except.error e => some (Except.error e)
  | Except.ok none => some (Except.ok [])
  | Except.ok (some bc) =>
    expandInstructions fuel bc.1 bc.2 (depth + 1) maxDepth

/-- Expansion of a whole program text exactly as `executeCommandsStepByStep`
performs it: parse the function table, join the execution lines, expand from
depth 0. -/
def expandProgram (fuel : Nat) (commandString : String) (maxDepth : Nat) :
    Option (Except String (List Char)) :=
  expandInstructions fuel (mainCommandsOf commandString)
    ⟨parseFunctionsAdvanced commandString, []⟩ 0 maxDepth

/-! ## Grid builder (`parseLevel`) and game initialization -/

/-- Row scan of `parseLevel`: builds the row with the robot marker rewritten
to `.` while threading the mutable `robotStart` (later markers overwrite). -/
def scanRow (y : Nat) : Nat → List Char → Position → List Char × Position
  | _, [], p => ([], p)
  | x, c :: cs, p =>
    let p' := if c = 'u' then (⟨(x : Int), (y : Int)⟩ : Position) else p
    let c' := if c = 'u' then '.' else c
    let pr := scanRow y (x + 1) cs p'
    (c' :: pr.1, pr.2)

def scanRows : Nat → List (List Char) → Position → List (List Char) × Position
  | _, [], p => ([], p)
  | y, l :: ls, p =>
    let pr := scanRow y 0 l p
    let pr2 := scanRows (y + 1) ls pr.2
    (pr.1 :: pr2.1, pr2.2)

def GRID_SIZE : Nat := 25

/-- Pad a parsed row with empty cells to the fixed width, or truncate it. -/
def normalizeRow (row : List Char) : List Char :=
  if row.length < GRID_SIZE then
    row ++ List.replicate (GRID_SIZE - row.length) '.'
  else row.take GRID_SIZE

/-- `parseLevel(levelData)`. -/
def parseLevel (levelData : String) : List (List Char) × Position :=
  let lines := splitOnChar '\n' (jsTrim levelData.toList)
  let pr := scanRows 0 lines ⟨0, 0⟩
  let grid := pr.1.map normalizeRow
  let grid :=
    if grid.length < GRID_SIZE then
      grid ++ List.replicate (GRID_SIZE - grid.length) (List.replicate GRID_SIZE '.')
    else grid.take GRID_SIZE
  (grid, pr.2)

/-- `countTotalPoints(grid)`. -/
def countTotalPoints (grid : List (List Char)) : Nat :=
  (grid.map (fun row => row.count 'o')).sum

/-- `initializeGame(levelData)`. -/
def initializeGame (levelData : String) : GameState :=
  let pr := parseLevel levelData
  { grid := pr.1
    robot := ⟨pr.2, Direction.up⟩
    initialRobot := ⟨pr.2, Direction.up⟩
    pointsCollected := 0
    totalPoints := countTotalPoints pr.1
    isGameOver := false
    isWon := false
    message := "" }

/-! ## Simulation engine -/

/-- `turnLeft`: index arithmetic `(i + 3) % 4` over `[up, right, down, left]`
reduced to the explicit cycle. -/
def turnLeft : Direction → Direction
  | Direction.up => Direction.left
  | Direction.left => Direction.down
  | Direction.down => Direction.right
  | Direction.right => Direction.up

/-- `turnRight`: index arithmetic `(i + 1) % 4` over `[up, right, down, left]`. -/
def turnRight : Direction → Direction
  | Direction.up => Direction.right
  | Direction.right => Direction.down
  | Direction.down => Direction.left
  | Direction.left => Direction.up

def getNextPosition (pos : Position) (direction : Direction) : Position :=
  match direction with
  | Direction.up => ⟨pos.x, pos.y - 1⟩
  | Direction.down => ⟨pos.x, pos.y + 1⟩
  | Direction.left => ⟨pos.x - 1, pos.y⟩
  | Direction.right => ⟨pos.x + 1, pos.y⟩

/-- `isValidPosition(pos, grid)`; note the source checks the column against
the length of row 0. -/
def isValidPosition (pos : Position) (grid : List (List Char)) : Bool :=
  0 ≤ pos.y ∧ pos.y < (grid.length : Int) ∧ 0 ≤ pos.x ∧
    pos.x < ((grid.headD []).length : Int)

/-- Cell access `grid[p.y][p.x]`; an out-of-range access on a ragged row
yields JavaScript `undefined`, which every test in `executeOneCommand`
treats exactly like an empty cell, so the default is `'.'`. -/
def cellAt (grid : List (List Char)) (p : Position) : Char :=
  (grid.getD p.y.toNat []).getD p.x.toNat '.'

/-- Cell write `grid[p.y][p.x] = c`. -/
def gridSet (grid : List (List Char)) (p : Position) (c : Char) :
    List (List Char) :=
  grid.set p.y.toNat ((grid.getD p.y.toNat []).set p.x.toNat c)

/-- `isWall(cellType)`: the regex `/^[A-K]$/`. -/
def isWall (cellType : Char) : Bool :=
  'A' ≤ cellType ∧ cellType ≤ 'K'

def wallMsg : String := "üí• Robot hit the wall!"

def bombMsg : String := "üí• Robot hit a bomb!"

def winMsg : String := "üéâ You collected all points! You won!"

/-- `executeOneCommand(command, state)` as a pure state transformer. -/
def executeOneCommand (command : Char) (state : GameState) : GameState :=
  if state.isGameOver then state
  else if command = 'l' then
    { state with robot := ⟨state.robot.position, turnLeft state.robot.direction⟩ }
  else if command = 'r' then
    { state with robot := ⟨state.robot.position, turnRight state.robot.direction⟩ }
  else if command = 's' then
    let nextPos := getNextPosition state.robot.position state.robot.direction
    if isValidPosition nextPos state.grid = false then
      { state with isGameOver := true, message := wallMsg }
    else
      let cellType := cellAt state.grid nextPos
      if isWall cellType then state
      else if cellType = '*' then
        { state with robot := ⟨nextPos, state.robot.direction⟩,
                     isGameOver := true, message := bombMsg }
      else if cellType = 'o' then
        let grid' := gridSet state.grid nextPos '.'
        let pc := state.pointsCollected + 1
        if pc = state.totalPoints then
          { state with grid := grid', pointsCollected := pc,
                       robot := ⟨nextPos, state.robot.direction⟩,
                       isWon := true, isGameOver := true, message := winMsg }
        else
          { state with grid := grid', pointsCollected := pc,
                       robot := ⟨nextPos, state.robot.direction⟩ }
      else
        { state with robot := ⟨nextPos, state.robot.direction⟩ }
  else state

def capMsg (maxSteps : Nat) : String :=
  "‚ö†Ô∏è Maximum steps (" ++ toString maxSteps ++
    ") reached. Check for infinite loops."

/-- The per-instruction loop of `executeCommandsStepByStep`: returns the
yielded snapshots (one per executed `s`/`l`/`r`) and the state the generator
finally returns.  The cap check happens on re-entry before each character;
when it fires the returned state is marked over with the max-steps message
but no further snapshot is yielded. -/
def runLoop : List Char → GameState → Nat → Nat → List GameState × GameState
  | [], st, _, _ => ([], st)
  | c :: rest, st, stepCount, maxSteps =>
    if st.isGameOver ∨ stepCount ≥ maxSteps then
      if stepCount ≥ maxSteps then
        ([], { st with isGameOver := true, message := capMsg maxSteps })
      else ([], st)
    else
      let ch := c.toLower
      if ch = 's' ∨ ch = 'l' ∨ ch = 'r' then
        let st' := executeOneCommand ch st
        let pr := runLoop rest st' (stepCount + 1) maxSteps
        (st' :: pr.1, pr.2)
      else runLoop rest st stepCount maxSteps

def errPrefix : String := "‚ö†Ô∏è "

/-- The snapshot produced by the generator's catch block: a copy of the
initial state, marked terminal, carrying the thrown message. -/
def errState (st : GameState) (msg : String) : GameState :=
  { st with isGameOver := true, message := errPrefix ++ msg }

/-- `executeCommandsStepByStep(commandString, initialState, maxSteps)`:
`some (yields, ret)` is the list of yielded snapshots plus the generator's
return value; `none` models an expansion that never terminates. -/
def executeCommandsStepByStep (fuel : Nat) (commandString : String)
    (initialState : GameState) (maxSteps : Nat) :
    Option (List GameState × GameState) :=
  match expandInstructions fuel (mainCommandsOf commandString)
      ⟨parseFunctionsAdvanced commandString, []⟩ 0 1000 with
  | none => none
  | some (Except.error e) =>
    some ([errState initialState e], errState initialState e)
  | some (Except.ok expandedCommands) =>
    let pr := runLoop expandedCommands initialState 0 maxSteps
    some (initialState :: pr.1, pr.2)

/-! ## Shared lemmas about the argument-binding loop -/

theorem bindLoop_flag_off (ctx : ExecutionContext) :
    ∀ (pairs : List (List Char × List Char)) (acc : List (List Char × ArgValue)),
      (bindLoop ctx pairs acc false).2 = false := by
  intro pairs
  induction pairs with
  | nil => intro acc; rfl
  | cons pa rest ih =>
    intro acc
    obtain ⟨p, a⟩ := pa
    simp only [bindLoop, ite_self]
    split
    · exact ih _
    · exact ih _

theorem bindLoop_bad (ctx : ExecutionContext) :
    ∀ (pairs : List (List Char × List Char)) (acc : List (List Char × ArgValue))
      (flag : Bool),
      (∃ pa ∈ pairs, isNumericString pa.2 = true ∧
        evaluateExpression pa.2 ctx ≤ 0) →
      (bindLoop ctx pairs acc flag).2 = false := by
  intro pairs
  induction pairs with
  | nil =>
    rintro acc flag ⟨pa, hmem, _, _⟩
    exact absurd hmem (List.not_mem_nil pa)
  | cons hd rest ih =>
    rintro acc flag ⟨pa, hmem, hnum, hle⟩
    obtain ⟨p, a⟩ := hd
    rcases List.mem_cons.mp hmem with heq | htail
    · subst heq
      simp only [bindLoop, hnum, if_true, if_pos hle]
      exact bindLoop_flag_off ctx rest _
    · simp only [bindLoop]
      split
      · split
        · exact bindLoop_flag_off ctx rest _
        · exact ih _ _ ⟨pa, htail, hnum, hle⟩
      · exact ih _ _ ⟨pa, htail, hnum, hle⟩

/-- C1: whenever any argument bound to a declared parameter of the callee is
classified as numeric and evaluates to a value ≤ 0, the call expands to the
empty string without expanding the callee body; in particular with
`f(A):sf(A-1)` the call `f(3)` expands to exactly `sss`, and `f(0)` and
`f(-1)` expand to the empty string. -/
theorem c1_nonpositive_numeric_guard :
    (∀ (fuel : Nat) (ctx : ExecutionContext) (funcName : Char)
       (argsStr : List Char) (depth maxDepth : Nat) (fd : FunctionDef),
       depth ≤ maxDepth →
       ctx.functions.lookup funcName = some fd →
       (∃ pa ∈ fd.params.zip (parseArgs argsStr),
          isNumericString pa.2 = true ∧ evaluateExpression pa.2 ctx ≤ 0) →
       expandFunctionCall fuel funcName argsStr ctx depth maxDepth =
         some (Except.ok [])) ∧
    expandProgram 50 "f(A):sf(A-1)\nf(3)" 1000 =
      some (Except.ok ['s', 's', 's']) ∧
    expandProgram 50 "f(A):sf(A-1)\nf(0)" 1000 = some (Except.ok []) ∧
    expandProgram 50 "f(A):sf(A-1)\nf(-1)" 1000 = some (Except.ok []) := by
  refine ⟨?_, by rfl, by rfl, by rfl⟩
  intro fuel ctx funcName argsStr depth maxDepth fd hdepth hfd hbad
  have hflag : (bindLoop ctx (fd.params.zip (parseArgs argsStr))
      ctx.argValues true).2 = false :=
    bindLoop_bad ctx _ _ _ hbad
  simp only [expandFunctionCall, callStep, if_neg (Nat.not_lt.mpr hdepth), hfd,
    hflag, if_true]

/-- Witness for the guard theorem: the table of `f(A):sf(A-1)` with the call
`f(0)` satisfies every hypothesis, and the call expands to nothing. -/
theorem c1_nonpositive_numeric_guard_witness :
    expandFunctionCall 7 'f' ['0']
      ⟨parseFunctionsAdvanced "f(A):sf(A-1)\nf(0)", []⟩ 0 1000 =
      some (Except.ok []) :=
  c1_nonpositive_numeric_guard.1 7 _ 'f' ['0'] 0 1000
    ⟨'f', [['A']], ['s', 'f', '(', 'A', '-', '1', ')']⟩
    (by decide) (by decide)
    ⟨(['A'], ['0']), by decide, by decide, by decide⟩

/-! ## Claim C6: non-destructible walls -/

/-- C6: from any running state whose cell ahead is a wall kind (`A`–`K`),
executing `s` changes nothing — robot position and direction, grid, point
counters, flags and message are all unchanged — and the stepwise loop simply
proceeds with the remaining instructions. -/
theorem c6_wall_blocks_without_effect (st : GameState)
    (hrun : st.isGameOver = false)
    (hvalid : isValidPosition
      (getNextPosition st.robot.position st.robot.direction) st.grid = true)
    (hwall : isWall (cellAt st.grid
      (getNextPosition st.robot.position st.robot.direction)) = true) :
    executeOneCommand 's' st = st ∧
    ∀ (rest : List Char) (stepCount maxSteps : Nat), stepCount < maxSteps →
      runLoop ('s' :: rest) st stepCount maxSteps =
        ((st :: (runLoop rest st (stepCount + 1) maxSteps).1),
          (runLoop rest st (stepCount + 1) maxSteps).2) := by
  have hexec : executeOneCommand 's' st = st := by
    simp [executeOneCommand, hrun, hvalid, hwall]
  refine ⟨hexec, ?_⟩
  intro rest stepCount maxSteps hlt
  have hcond : ¬(st.isGameOver = true ∨ stepCount ≥ maxSteps) := by
    rw [hrun]
    simp [Nat.not_le.mpr hlt]
  simp [runLoop, hcond, hexec]

/-- Witness for C6: a one-cell wall directly above the robot blocks the step
and the run continues. -/
def c6st : GameState :=
  { grid := [['A']]
    robot := ⟨⟨0, 1⟩, Direction.up⟩
    initialRobot := ⟨⟨0, 1⟩, Direction.up⟩
    pointsCollected := 0
    totalPoints := 0
    isGameOver := false
    isWon := false
    message := "" }

theorem c6_wall_blocks_without_effect_witness :
    executeOneCommand 's' c6st = c6st ∧
    runLoop ['s', 'l'] c6st 0 10 =
      ((c6st :: (runLoop ['l'] c6st 1 10).1), (runLoop ['l'] c6st 1 10).2) :=
  ⟨(c6_wall_blocks_without_effect c6st (by decide) (by decide) (by decide)).1,
   (c6_wall_blocks_without_effect c6st (by decide) (by decide) (by decide)).2
     ['l'] 0 10 (by decide)⟩

/-! ## Claim C7: win condition -/

def c7init : GameState := initializeGame "o\nu"

def c7pair : List GameState × GameState :=
  (executeCommandsStepByStep 30 "s" c7init 10000).getD ([], c7init)

/-- C7: from a running state whose cell ahead is a point cell and where one
point is missing, `s` moves the robot onto the cell, empties it, makes the
collected count equal the total, and ends the game as won with the winning
message; concretely, the one-point level `o` over `u` with the one-step
program `s` ends in exactly that final snapshot, which is also the last
delivered one. -/
theorem c7_win_on_last_point :
    (∀ st : GameState, st.isGameOver = false →
      isValidPosition
        (getNextPosition st.robot.position st.robot.direction) st.grid = true →
      cellAt st.grid
        (getNextPosition st.robot.position st.robot.direction) = 'o' →
      st.pointsCollected + 1 = st.totalPoints →
      executeOneCommand 's' st =
        { st with
          grid := gridSet st.grid
            (getNextPosition st.robot.position st.robot.direction) '.'
          pointsCollected := st.pointsCollected + 1
          robot := ⟨getNextPosition st.robot.position st.robot.direction,
            st.robot.direction⟩
          isWon := true
          isGameOver := true
          message := winMsg }) ∧
    (executeCommandsStepByStep 30 "s" c7init 10000).isSome = true ∧
    c7pair.1.length = 2 ∧
    c7pair.2.isWon = true ∧
    c7pair.2.isGameOver = true ∧
    c7pair.2.pointsCollected = c7pair.2.totalPoints ∧
    c7pair.2.totalPoints = 1 ∧
    c7pair.2.message = winMsg ∧
    c7pair.2.robot.position = ⟨0, 0⟩ ∧
    cellAt c7pair.2.grid ⟨0, 0⟩ = '.' ∧
    c7pair.1.getLastD c7init = c7pair.2 := by
  refine ⟨?_, by rfl, by rfl, by rfl, by rfl, by rfl, by rfl, by rfl, by rfl,
    by rfl, by rfl⟩
  intro st hrun hvalid hcell hpts
  have hnw : isWall 'o' = false := by decide
  simp [executeOneCommand, hrun, hvalid, hcell, hnw, hpts]

/-- Witness for the general win-step part of C7 on a tiny hand-built state. -/
def c7wst : GameState :=
  { grid := [['o', '.']]
    robot := ⟨⟨1, 0⟩, Direction.left⟩
    initialRobot := ⟨⟨1, 0⟩, Direction.left⟩
    pointsCollected := 0
    totalPoints := 1
    isGameOver := false
    isWon := false
    message := "" }

theorem c7_win_on_last_point_witness :
    executeOneCommand 's' c7wst =
      { c7wst with
        grid := gridSet c7wst.grid
          (getNextPosition c7wst.robot.position c7wst.robot.direction) '.'
        pointsCollected := c7wst.pointsCollected + 1
        robot := ⟨getNextPosition c7wst.robot.position c7wst.robot.direction,
          c7wst.robot.direction⟩
        isWon := true
        isGameOver := true
        message := winMsg } :=
  c7_win_on_last_point.1 c7wst (by decide) (by decide) (by decide) (by decide)

/-! ## Claim C8: state-machine invariants -/

theorem executeOneCommand_frozen (c : Char) (st : GameState)
    (h : st.isGameOver = true) : executeOneCommand c st = st := by
  simp [executeOneCommand, h]

theorem executeOneCommand_totalPoints (c : Char) (st : GameState) :
    (executeOneCommand c st).totalPoints = st.totalPoints := by
  simp only [executeOneCommand]
  repeat' split
  all_goals rfl

theorem executeOneCommand_points_mono (c : Char) (st : GameState) :
    st.pointsCollected ≤ (executeOneCommand c st).pointsCollected := by
  simp only [executeOneCommand]
  repeat' split
  all_goals simp

theorem executeOneCommand_won_imp (c : Char) (st : GameState)
    (h : st.isWon = true → st.isGameOver = true) :
    (executeOneCommand c st).isWon = true →
      (executeOneCommand c st).isGameOver = true := by
  simp only [executeOneCommand]
  repeat' split
  all_goals simp_all

theorem count_set_collect :
    ∀ (l : List Char) (x : Nat), l.getD x '.' = 'o' →
      (l.set x '.').count 'o' + 1 = l.count 'o' := by
  intro l
  induction l with
  | nil => intro x h; simp at h
  | cons c cs ih =>
    intro x h
    cases x with
    | zero =>
      simp only [List.getD_cons_zero] at h
      subst h
      simp [List.count_cons]
    | succ x =>
      simp only [List.getD_cons_succ] at h
      simp only [List.set_cons_succ, List.count_cons]
      have := ih x h
      omega

theorem countTotal_set :
    ∀ (g : List (List Char)) (y : Nat) (r : List Char), y < g.length →
      countTotalPoints (g.set y r) + (g.getD y []).count 'o' =
        countTotalPoints g + r.count 'o' := by
  intro g
  induction g with
  | nil => intro y r h; simp at h
  | cons row rows ih =>
    intro y r h
    cases y with
    | zero => simp [countTotalPoints]; omega
    | succ y =>
      simp only [List.set_cons_succ, List.getD_cons_succ, countTotalPoints,
        List.map_cons, List.sum_cons] at ih ⊢
      have := ih y r (by simpa using Nat.lt_of_succ_lt_succ h)
      omega

theorem cellAt_o_row_bound (g : List (List Char)) (p : Position)
    (h : cellAt g p = 'o') : p.y.toNat < g.length := by
  by_contra hge
  have : g.getD p.y.toNat [] = [] := List.getD_eq_default _ _ (Nat.le_of_not_lt hge)
  rw [cellAt, this] at h
  simp at h

theorem gridSet_collect_count (g : List (List Char)) (p : Position)
    (h : cellAt g p = 'o') :
    countTotalPoints (gridSet g p '.') + 1 = countTotalPoints g := by
  have hy : p.y.toNat < g.length := cellAt_o_row_bound g p h
  have h1 := count_set_collect (g.getD p.y.toNat []) p.x.toNat h
  have h2 := countTotal_set g p.y.toNat
    ((g.getD p.y.toNat []).set p.x.toNat '.') hy
  unfold gridSet
  omega

theorem executeOneCommand_conservation (c : Char) (st : GameState)
    (h : st.pointsCollected + countTotalPoints st.grid = st.totalPoints) :
    (executeOneCommand c st).pointsCollected +
      countTotalPoints (executeOneCommand c st).grid =
      (executeOneCommand c st).totalPoints := by
  simp only [executeOneCommand]
  repeat' split
  all_goals try simpa using h
  all_goals
    rename_i hcell hpc
  all_goals
    have hc := gridSet_collect_count st.grid _ hcell
  all_goals dsimp only
  all_goals omega

/-- The state after applying a whole list of primitive instructions in
sequence (the states a run walks through are its prefixes). -/
def applyCommands (cmds : List Char) (st : GameState) : GameState :=
  cmds.foldl (fun s c => executeOneCommand c s) st

theorem applyCommands_inv :
    ∀ (cmds : List Char) (st : GameState),
      st.pointsCollected + countTotalPoints st.grid = st.totalPoints →
      ((applyCommands cmds st).pointsCollected +
          countTotalPoints (applyCommands cmds st).grid =
          (applyCommands cmds st).totalPoints ∧
        st.pointsCollected ≤ (applyCommands cmds st).pointsCollected ∧
        (applyCommands cmds st).totalPoints = st.totalPoints) := by
  intro cmds
  induction cmds with
  | nil => intro st h; exact ⟨h, Nat.le_refl _, rfl⟩
  | cons c rest ih =>
    intro st h
    have hstep := executeOneCommand_conservation c st h
    have hmono := executeOneCommand_points_mono c st
    have htot := executeOneCommand_totalPoints c st
    have hrec := ih (executeOneCommand c st) hstep
    have hcons : applyCommands (c :: rest) st =
        applyCommands rest (executeOneCommand c st) := rfl
    rw [hcons]
    exact ⟨hrec.1, Nat.le_trans hmono hrec.2.1, by rw [hrec.2.2, htot]⟩

/-- C8 (amended): once `isGameOver` is set nothing changes; the implication
`isWon → isGameOver` is preserved by every instruction (and holds initially
for `initializeGame` states, where `isWon` is false); `pointsCollected` never
decreases; and along any instruction sequence from a state satisfying the
conservation equation `pointsCollected + remaining grid points = totalPoints`
— which every `initializeGame` state satisfies — `pointsCollected` stays
bounded by `totalPoints`. -/
theorem c8_invariants :
    (∀ (c : Char) (st : GameState), st.isGameOver = true →
      executeOneCommand c st = st) ∧
    (∀ (c : Char) (st : GameState),
      (st.isWon = true → st.isGameOver = true) →
      ((executeOneCommand c st).isWon = true →
        (executeOneCommand c st).isGameOver = true)) ∧
    (∀ (c : Char) (st : GameState),
      st.pointsCollected ≤ (executeOneCommand c st).pointsCollected) ∧
    (∀ (cmds : List Char) (st : GameState),
      st.pointsCollected + countTotalPoints st.grid = st.totalPoints →
      ((applyCommands cmds st).pointsCollected ≤
          (applyCommands cmds st).totalPoints ∧
        st.pointsCollected ≤ (applyCommands cmds st).pointsCollected)) ∧
    (∀ levelData : String,
      (initializeGame levelData).isWon = false ∧
      (initializeGame levelData).pointsCollected +
        countTotalPoints (initializeGame levelData).grid =
        (initializeGame levelData).totalPoints) := by
  refine ⟨executeOneCommand_frozen, executeOneCommand_won_imp,
    executeOneCommand_points_mono, ?_, ?_⟩
  · intro cmds st h
    have hrec := applyCommands_inv cmds st h
    exact ⟨by omega, hrec.2.1⟩
  · intro levelData
    exact ⟨rfl, by simp [initializeGame]⟩

theorem c8_invariants_witness :
    executeOneCommand 's' (errState c6st "e") = errState c6st "e" ∧
    ((executeOneCommand 'l' c7wst).isWon = true →
      (executeOneCommand 'l' c7wst).isGameOver = true) ∧
    ((applyCommands ['s'] c7wst).pointsCollected ≤
        (applyCommands ['s'] c7wst).totalPoints ∧
      c7wst.pointsCollected ≤ (applyCommands ['s'] c7wst).pointsCollected) :=
  ⟨c8_invariants.1 's' (errState c6st "e") (by decide),
   c8_invariants.2.1 'l' c7wst (by decide),
   c8_invariants.2.2.2.1 ['s'] c7wst (by decide)⟩

/-- Counterexample to C8 as stated: from an arbitrary (not
`initializeGame`-produced) initial state with `totalPoints = 0`, `isWon`
already set and a point cell ahead, one `s` instruction drives
`pointsCollected` above `totalPoints` while `isWon` stays true with the
terminal flag still unset. -/
def c8bad : GameState :=
  { grid := [['o', '.']]
    robot := ⟨⟨1, 0⟩, Direction.left⟩
    initialRobot := ⟨⟨1, 0⟩, Direction.left⟩
    pointsCollected := 0
    totalPoints := 0
    isGameOver := false
    isWon := true
    message := "" }

theorem c8_invariants_counterexample :
    (executeOneCommand 's' c8bad).pointsCollected = 1 ∧
    (executeOneCommand 's' c8bad).totalPoints = 0 ∧
    (executeOneCommand 's' c8bad).isWon = true ∧
    (executeOneCommand 's' c8bad).isGameOver = false := by
  decide


/-! ## Claim C3: line classification -/

theorem dropWhile_mono {p q : Char → Bool} (himp : ∀ ch, p ch = true → q ch = true)
    {x : Char} (hx : q x = false) :
    ∀ (l xs : List Char), List.dropWhile p l = x :: xs →
      List.dropWhile q l = x :: xs := by
  intro l
  induction l with
  | nil => intro xs h; simp at h
  | cons y ys ih =>
    intro xs h
    rw [List.dropWhile_cons] at h ⊢
    by_cases hp : p y = true
    · have hq := himp y hp
      rw [if_pos hp] at h
      rw [if_pos hq]
      exact ih xs h
    · rw [if_neg hp] at h
      obtain ⟨h1, h2⟩ := List.cons.inj h
      subst h1
      rw [if_neg (by simp [hx])]
      exact h

theorem paramChar_filterInner (ch : Char) (h : isParamChar ch = true) :
    isFilterInner ch = true := by
  simp only [isParamChar, Bool.or_eq_true, decide_eq_true_eq] at h
  simp only [isFilterInner, Bool.or_eq_true, decide_eq_true_eq]
  tauto

theorem parseDefLine_filterMatches :
    ∀ (l : List Char) (fd : FunctionDef),
      parseDefLine l = some fd → filterMatches l = true := by
  intro l fd h
  match l with
  | [] => simp [parseDefLine] at h
  | [c] => simp [parseDefLine] at h
  | c :: c2 :: rest =>
    simp only [parseDefLine] at h
    split at h
    · rename_i h2
      rw [show c2 = '(' from h2]
      split at h
      · rename_i hlow
        split at h
        · rename_i body heq
          have hdropB : rest.dropWhile isFilterInner = ')' :: ':' :: body :=
            dropWhile_mono paramChar_filterInner (by decide) rest _ heq
          simp only [filterMatches, hlow, if_true]
          rw [List.dropWhile_cons, if_neg (by decide)]
          simp only [hdropB]
          rw [List.dropWhile_cons, if_neg (by decide)]
          simp
        · simp at h
      · simp at h
    · rename_i h2
      split at h
      · rename_i h3
        rw [show c2 = ':' from h3]
        split at h
        · rename_i hc
          simp only [filterMatches, hc.1, if_true]
          rw [List.dropWhile_cons, if_neg (by decide)]
          rfl
        · simp at h
      · simp at h

/-- C3 (amended): the main program is the verbatim concatenation of exactly
those lines whose trimmed form does not match the looser definition-prefix
filter regex; every line recognized as a function definition matches the
filter (so no definition leaks into the main program), but the converse
fails — a filter-matching line that the definition grammar rejects (such as
`f():l`) is dropped entirely, ending up neither in the function table nor in
the main program. -/
theorem c3_line_classification :
    (∀ (l : List Char) (fd : FunctionDef),
      parseDefLine l = some fd → filterMatches l = true) ∧
    (∀ (prog : String) (line : List Char),
      line ∈ splitOnChar '\n' prog.toList →
      filterMatches (jsTrim line) = false →
      line ∈ executionLines prog) ∧
    (∀ prog : String, mainCommandsOf prog = (executionLines prog).flatten) := by
  refine ⟨parseDefLine_filterMatches, ?_, fun _ => rfl⟩
  intro prog line hmem hfil
  simp only [executionLines, List.mem_filter, decide_eq_true_eq]
  exact ⟨hmem, hfil⟩

theorem c3_line_classification_witness :
    filterMatches ['f', ':', 's'] = true ∧
    (['s'] : List Char) ∈ executionLines "s" :=
  ⟨c3_line_classification.1 ['f', ':', 's'] ⟨'f', [], ['s']⟩ (by decide),
   c3_line_classification.2.1 "s" ['s'] (by decide) (by decide)⟩

/-- Counterexample to C3 as stated: the line `f():l` fails the definition
grammar in its entirety, yet it is excluded from the main program by the
looser filter — it is dropped, not "treated as part of the main program". -/
theorem c3_line_classification_counterexample :
    parseDefLine ['f', '(', ')', ':', 'l'] = none ∧
    filterMatches ['f', '(', ')', ':', 'l'] = true ∧
    parseFunctionsAdvanced "f():l" = [] ∧
    executionLines "f():l" = [] ∧
    mainCommandsOf "f():l" = [] := by
  decide

/-! ## Claim C4: recursion-depth error and run abortion -/

def c4prog : String := "a:sb\nb:la\na"

def c4ctx : ExecutionContext := ⟨parseFunctionsAdvanced c4prog, []⟩

theorem expandInstructions_single_call (fuel : Nat) (c : Char)
    (ctx : ExecutionContext) (depth maxDepth : Nat)
    (hns : (c = 's' ∨ c = 'l' ∨ c = 'r') = False)
    (hnu : isUpperAZ c = false) (hlow : isLowerAZ c = true) :
    expandInstructions (fuel + 1) [c] ctx depth maxDepth =
      obind (expandFunctionCall fuel c [] ctx depth maxDepth)
        (fun h => some (Except.ok h)) := by
  simp only [expandInstructions, hns, if_false, hnu, Bool.false_eq_true,
    hlow, if_true, expandFunctionCall]
  match callStep ctx c [] depth maxDepth with
  | Except.error e => rfl
  | Except.ok none => rfl
  | Except.ok (some bc) =>
    simp only []
    match expandInstructions fuel bc.1 bc.2 (depth + 1) maxDepth with
    | none => rfl
    | some (Except.error e) => rfl
    | some (Except.ok h) => simp [obind, expandInstructions]

theorem c4_depth_chain (maxDepth : Nat) :
    ∀ (n k fuel : Nat), maxDepth + 1 ≤ k + n → 2 * n ≤ fuel →
      expandFunctionCall fuel 'a' [] c4ctx k maxDepth =
          some (Except.error (depthErrMsg maxDepth)) ∧
        expandFunctionCall fuel 'b' [] c4ctx k maxDepth =
          some (Except.error (depthErrMsg maxDepth)) := by
  intro n
  induction n with
  | zero =>
    intro k fuel hk _
    have hgt : maxDepth < k := by omega
    constructor <;>
      simp [expandFunctionCall, callStep, hgt]
  | succ n ih =>
    intro k fuel hk hfuel
    by_cases hgt : maxDepth < k
    · constructor <;> simp [expandFunctionCall, callStep, hgt]
    · obtain ⟨f2, rfl⟩ : ∃ f2, fuel = f2 + 2 :=
        ⟨fuel - 2, by omega⟩
      have hib := ih (k + 1) f2 (by omega) (by omega)
      constructor
      · have hstep : expandFunctionCall (f2 + 2) 'a' [] c4ctx k maxDepth =
            expandInstructions (f2 + 2) ['s', 'b'] c4ctx (k + 1) maxDepth := by
          simp [expandFunctionCall, callStep, hgt, c4ctx, bindLoop, parseArgs]
          rfl
        rw [hstep]
        have h1 : expandInstructions (f2 + 2) ['s', 'b'] c4ctx (k + 1) maxDepth =
            omap (fun t => 's' :: t)
              (expandInstructions (f2 + 1) ['b'] c4ctx (k + 1) maxDepth) := by
          simp [expandInstructions]
        rw [h1, expandInstructions_single_call f2 'b' c4ctx (k + 1) maxDepth
          (by decide) (by decide) (by decide), hib.2]
        rfl
      · have hstep : expandFunctionCall (f2 + 2) 'b' [] c4ctx k maxDepth =
            expandInstructions (f2 + 2) ['l', 'a'] c4ctx (k + 1) maxDepth := by
          simp [expandFunctionCall, callStep, hgt, c4ctx, bindLoop, parseArgs]
          rfl
        rw [hstep]
        have h1 : expandInstructions (f2 + 2) ['l', 'a'] c4ctx (k + 1) maxDepth =
            omap (fun t => 'l' :: t)
              (expandInstructions (f2 + 1) ['a'] c4ctx (k + 1) maxDepth) := by
          simp [expandInstructions]
        rw [h1, expandInstructions_single_call f2 'a' c4ctx (k + 1) maxDepth
          (by decide) (by decide) (by decide), hib.1]
        rfl

/-- C4: an expansion error aborts the run before any simulation step — the
step-by-step execution yields exactly one snapshot, the initial state marked
terminal and carrying the prefixed error message, and returns it; the depth
check raises the depth-exceeded error exactly on the first call whose depth
exceeds the configured maximum (third conjunct: any call at depth > max
errors immediately), and mutual recursion `a:sb` / `b:la` / main `a` hits it
for every configured maximum (second conjunct). -/
theorem c4_depth_error_aborts_run :
    (∀ (fuel : Nat) (prog : String) (st : GameState) (maxSteps : Nat)
       (e : String),
       expandInstructions fuel (mainCommandsOf prog)
         ⟨parseFunctionsAdvanced prog, []⟩ 0 1000 = some (Except.error e) →
       executeCommandsStepByStep fuel prog st maxSteps =
         some ([errState st e], errState st e) ∧
       errState st e =
         { st with isGameOver := true, message := errPrefix ++ e }) ∧
    (∀ (maxDepth fuel : Nat), 2 * maxDepth + 3 ≤ fuel →
       expandProgram fuel c4prog maxDepth =
         some (Except.error (depthErrMsg maxDepth))) ∧
    (∀ (fuel : Nat) (funcName : Char) (argsStr : List Char)
       (ctx : ExecutionContext) (depth maxDepth : Nat), maxDepth < depth →
       expandFunctionCall fuel funcName argsStr ctx depth maxDepth =
         some (Except.error (depthErrMsg maxDepth))) := by
  refine ⟨?_, ?_, ?_⟩
  · intro fuel prog st maxSteps e hexp
    constructor
    · simp only [executeCommandsStepByStep, hexp]
    · rfl
  · intro maxDepth fuel hfuel
    obtain ⟨f, rfl⟩ : ∃ f, fuel = f + 1 := ⟨fuel - 1, by omega⟩
    have hmain : expandProgram (f + 1) c4prog maxDepth =
        expandInstructions (f + 1) ['a'] c4ctx 0 maxDepth := rfl
    rw [hmain, expandInstructions_single_call f 'a' c4ctx 0 maxDepth
      (by decide) (by decide) (by decide),
      (c4_depth_chain maxDepth (maxDepth + 1) 0 f (by omega) (by omega)).1]
    rfl
  · intro fuel funcName argsStr ctx depth maxDepth hgt
    simp [expandFunctionCall, callStep, hgt]

def wst : GameState :=
  { grid := [['.']]
    robot := ⟨⟨0, 0⟩, Direction.up⟩
    initialRobot := ⟨⟨0, 0⟩, Direction.up⟩
    pointsCollected := 0
    totalPoints := 0
    isGameOver := false
    isWon := false
    message := "" }

theorem c4_depth_error_aborts_run_witness :
    expandProgram 2005 c4prog 1000 =
      some (Except.error (depthErrMsg 1000)) ∧
    executeCommandsStepByStep 2005 c4prog wst 10000 =
      some ([errState wst (depthErrMsg 1000)],
        errState wst (depthErrMsg 1000)) ∧
    expandFunctionCall 0 'q' [] ⟨[], []⟩ 5 2 =
      some (Except.error (depthErrMsg 2)) :=
  ⟨c4_depth_error_aborts_run.2.1 1000 2005 (by norm_num),
   (c4_depth_error_aborts_run.1 2005 c4prog wst 10000 (depthErrMsg 1000)
     (c4_depth_error_aborts_run.2.1 1000 2005 (by norm_num))).1,
   c4_depth_error_aborts_run.2.2 0 'q' [] ⟨[], []⟩ 5 2 (by norm_num)⟩

/-! ## Claim C9: instruction-argument substitution -/

theorem expandInstructions_basic :
    ∀ (fuel : Nat) (l : List Char) (ctx : ExecutionContext)
      (depth maxDepth : Nat),
      (∀ c ∈ l, c = 's' ∨ c = 'l' ∨ c = 'r') →
      expandInstructions fuel l ctx depth maxDepth = none ∨
        expandInstructions fuel l ctx depth maxDepth = some (Except.ok l) := by
  intro fuel
  induction fuel with
  | zero =>
    intro l ctx depth maxDepth hl
    cases l with
    | nil => exact Or.inr rfl
    | cons c cs => exact Or.inl rfl
  | succ fuel ih =>
    intro l ctx depth maxDepth hl
    cases l with
    | nil => exact Or.inr rfl
    | cons c cs =>
      have hc := hl c (List.mem_cons_self c cs)
      have hrec := ih cs ctx depth maxDepth
        (fun x hx => hl x (List.mem_cons_of_mem c hx))
      have hbranch : expandInstructions (fuel + 1) (c :: cs) ctx depth maxDepth =
          omap (fun t => c :: t)
            (expandInstructions fuel cs ctx depth maxDepth) := by
        simp [expandInstructions, hc]
      rcases hrec with hnone | hok
      · rw [hbranch, hnone]; exact Or.inl rfl
      · rw [hbranch, hok]; exact Or.inr rfl

def c9prog : String := "f(B):Bf(Bs)\nf(lr)"

def c9funcs : List (Char × FunctionDef) := parseFunctionsAdvanced c9prog

/-- The binding context after the outer call `f(lr)`: `B` bound to the
instruction fragment `lr`. -/
def c9ctx1 : ExecutionContext := ⟨c9funcs, [(['B'], ArgValue.str ['l', 'r'])]⟩

/-- The binding context after the self-referential inner call `f(Bs)`: `B`
bound to the literal text `Bs`, which mentions `B` itself. -/
def c9ctx2 : ExecutionContext := ⟨c9funcs, [(['B'], ArgValue.str ['B', 's'])]⟩

theorem expandInstructions_nil (fuel : Nat) (ctx : ExecutionContext)
    (depth maxDepth : Nat) :
    expandInstructions fuel [] ctx depth maxDepth = some (Except.ok []) := by
  cases fuel <;> rfl

theorem c9_loop :
    ∀ (fuel depth : Nat),
      expandInstructions fuel ['B', 's'] c9ctx2 depth 1000 = none := by
  intro fuel
  induction fuel with
  | zero => intro depth; rfl
  | succ fuel ih =>
    intro depth
    have hB : expandInstructions (fuel + 1) ['B', 's'] c9ctx2 depth 1000 =
        obind (expandInstructions fuel ['B', 's'] c9ctx2 depth 1000)
          (fun h => obind (expandInstructions fuel ['s'] c9ctx2 depth 1000)
            (fun t => some (Except.ok (h ++ t)))) := by
      simp [expandInstructions, (by decide : isUpperAZ 'B' = true), c9ctx2,
        List.lookup]
    rw [hB, ih]
    rfl

theorem c9_body_ctx2 :
    ∀ (fuel depth : Nat),
      expandInstructions fuel ['B', 'f', '(', 'B', 's', ')'] c9ctx2
        depth 1000 = none := by
  intro fuel depth
  cases fuel with
  | zero => rfl
  | succ fuel =>
    have hB : expandInstructions (fuel + 1) ['B', 'f', '(', 'B', 's', ')']
        c9ctx2 depth 1000 =
        obind (expandInstructions fuel ['B', 's'] c9ctx2 depth 1000)
          (fun h =>
            obind (expandInstructions fuel ['f', '(', 'B', 's', ')'] c9ctx2
              depth 1000)
            (fun t => some (Except.ok (h ++ t)))) := by
      simp [expandInstructions, (by decide : isUpperAZ 'B' = true), c9ctx2,
        List.lookup]
    rw [hB, c9_loop]
    rfl

theorem c9_call_ctx1 :
    ∀ fuel : Nat,
      expandInstructions fuel ['f', '(', 'B', 's', ')'] c9ctx1 1 1000 =
        none := by
  intro fuel
  cases fuel with
  | zero => rfl
  | succ fuel =>
    have hstep : expandInstructions (fuel + 1) ['f', '(', 'B', 's', ')']
        c9ctx1 1 1000 =
        obind (expandInstructions fuel ['B', 'f', '(', 'B', 's', ')'] c9ctx2
          2 1000)
          (fun h => obind (expandInstructions fuel [] c9ctx1 1 1000)
            (fun t => some (Except.ok (h ++ t)))) := by
      simp only [expandInstructions]
      rw [show callStep c9ctx1 'f'
          (if (['B', 's', ')'] : List Char) = [] then ['(']
            else (scanArgs ['B', 's', ')'] 1).1.dropLast) 1 1000 =
          Except.ok (some (['B', 'f', '(', 'B', 's', ')'], c9ctx2)) from rfl]
      simp [(by decide : ('f' = 's' ∨ 'f' = 'l' ∨ 'f' = 'r') = False),
        (by decide : isUpperAZ 'f' = false),
        (by decide : isLowerAZ 'f' = true),
        (by decide : (scanArgs ['B', 's', ')'] 1).2 = ([] : List Char)),
        expandInstructions_nil]
    rw [hstep, c9_body_ctx2]
    rfl

theorem c9_body_ctx1 :
    ∀ fuel : Nat,
      expandInstructions fuel ['B', 'f', '(', 'B', 's', ')'] c9ctx1 1 1000 =
        none := by
  intro fuel
  cases fuel with
  | zero => rfl
  | succ fuel =>
    have hB : expandInstructions (fuel + 1) ['B', 'f', '(', 'B', 's', ')']
        c9ctx1 1 1000 =
        obind (expandInstructions fuel ['l', 'r'] c9ctx1 1 1000)
          (fun h =>
            obind (expandInstructions fuel ['f', '(', 'B', 's', ')'] c9ctx1
              1 1000)
            (fun t => some (Except.ok (h ++ t)))) := by
      simp [expandInstructions, (by decide : isUpperAZ 'B' = true), c9ctx1,
        List.lookup]
    rw [hB]
    rcases expandInstructions_basic fuel ['l', 'r'] c9ctx1 1 1000
      (by decide) with hnone | hok
    · rw [hnone]; rfl
    · rw [hok, c9_call_ctx1]
      rfl

/-- C9 is false of the code: expanding `f(lr)` under `f(B):Bf(Bs)` never
produces any output at all.  At the second recursion level the callee binds
`B` to the literal text `Bs` and then expands `B` in its own context, where
`Bs` refers to itself, so argument expansion recurses forever at constant
depth: the expansion diverges for every fuel budget (a stack overflow in the
JavaScript engine), instead of producing `lr`, `lrs`, `lrss`, … and ending
with the depth-limit error as the claim (and the in-app help text) states. -/
theorem c9_self_capture_diverges :
    (∀ fuel : Nat, expandProgram fuel c9prog 1000 = none) ∧
    (∀ (fuel : Nat) (st : GameState) (maxSteps : Nat),
      executeCommandsStepByStep fuel c9prog st maxSteps = none) := by
  have hexp : ∀ fuel : Nat, expandProgram fuel c9prog 1000 = none := by
    intro fuel
    cases fuel with
    | zero => rfl
    | succ fuel =>
      have hmain : expandProgram (fuel + 1) c9prog 1000 =
          expandInstructions (fuel + 1) ['f', '(', 'l', 'r', ')']
            ⟨c9funcs, []⟩ 0 1000 := rfl
      have hstep : expandInstructions (fuel + 1) ['f', '(', 'l', 'r', ')']
          ⟨c9funcs, []⟩ 0 1000 =
          obind (expandInstructions fuel ['B', 'f', '(', 'B', 's', ')']
            c9ctx1 1 1000)
            (fun h => obind (expandInstructions fuel [] ⟨c9funcs, []⟩ 0 1000)
              (fun t => some (Except.ok (h ++ t)))) := by
        simp only [expandInstructions]
        rw [show callStep ⟨c9funcs, []⟩ 'f'
            (if (['l', 'r', ')'] : List Char) = [] then ['(']
              else (scanArgs ['l', 'r', ')'] 1).1.dropLast) 0 1000 =
            Except.ok (some (['B', 'f', '(', 'B', 's', ')'], c9ctx1)) from rfl]
        simp [(by decide : ('f' = 's' ∨ 'f' = 'l' ∨ 'f' = 'r') = False),
          (by decide : isUpperAZ 'f' = false),
          (by decide : isLowerAZ 'f' = true),
          (by decide : (scanArgs ['l', 'r', ')'] 1).2 = ([] : List Char)),
          expandInstructions_nil]
      rw [hmain, hstep, c9_body_ctx1]
      rfl
  refine ⟨hexp, ?_⟩
  intro fuel st maxSteps
  have h := hexp fuel
  simp only [executeCommandsStepByStep]
  rw [show expandInstructions fuel (mainCommandsOf c9prog)
    ⟨parseFunctionsAdvanced c9prog, []⟩ 0 1000 = none from h]

/-! ## Claim C5: step cap -/

theorem executeOneCommand_message (c : Char) (st : GameState) :
    (executeOneCommand c st).message = st.message ∨
    (executeOneCommand c st).message = wallMsg ∨
    (executeOneCommand c st).message = bombMsg ∨
    (executeOneCommand c st).message = winMsg := by
  simp only [executeOneCommand]
  repeat' split
  all_goals simp

theorem capMsg_ne (m : Nat) :
    capMsg m ≠ wallMsg ∧ capMsg m ≠ bombMsg ∧ capMsg m ≠ winMsg := by
  refine ⟨fun h => ?_, fun h => ?_, fun h => ?_⟩ <;>
  · have hd := congrArg String.data h
    simp [capMsg, wallMsg, bombMsg, winMsg, String.data_append] at hd

theorem runLoop_length :
    ∀ (cmds : List Char) (st : GameState) (sc m : Nat),
      (runLoop cmds st sc m).1.length ≤ m - sc := by
  intro cmds
  induction cmds with
  | nil => intro st sc m; simp [runLoop]
  | cons c rest ih =>
    intro st sc m
    simp only [runLoop]
    split
    · split <;> simp
    · rename_i hcond
      have hsc : sc < m := by
        push_neg at hcond
        omega
      split
      · have := ih (executeOneCommand c.toLower st) (sc + 1) m
        simp only [List.length_cons]
        omega
      · exact ih st sc m

theorem runLoop_cap :
    ∀ (cmds : List Char) (st : GameState) (sc m : Nat),
      (∀ c ∈ cmds, c = 's' ∨ c = 'l' ∨ c = 'r') →
      m - sc < cmds.length →
      (runLoop cmds st sc m).1.length = m - sc →
      (runLoop cmds st sc m).2.isGameOver = true ∧
        (runLoop cmds st sc m).2.message = capMsg m := by
  intro cmds
  induction cmds with
  | nil => intro st sc m _ hlen _; simp at hlen
  | cons c rest ih =>
    intro st sc m hbasic hlen hexec
    simp only [runLoop] at hexec ⊢
    by_cases hcond : (st.isGameOver = true ∨ sc ≥ m)
    · rw [if_pos hcond] at hexec ⊢
      by_cases hcap : sc ≥ m
      · rw [if_pos hcap]
        exact ⟨rfl, rfl⟩
      · rw [if_neg hcap] at hexec
        simp at hexec
        omega
    · rw [if_neg hcond] at hexec ⊢
      have hsc : sc < m := by
        push_neg at hcond
        omega
      have hc := hbasic c (List.mem_cons_self c rest)
      have hch : (c.toLower = 's' ∨ c.toLower = 'l' ∨ c.toLower = 'r') := by
        rcases hc with h | h | h <;> subst h <;> decide
      rw [if_pos hch] at hexec ⊢
      simp only [List.length_cons] at hexec
      exact ih (executeOneCommand c.toLower st) (sc + 1) m
        (fun x hx => hbasic x (List.mem_cons_of_mem c hx))
        (by simp at hlen; omega) (by omega)

theorem runLoop_msg :
    ∀ (cmds : List Char) (st : GameState) (sc m : Nat),
      cmds.length ≤ m - sc →
      ((runLoop cmds st sc m).2.message = st.message ∨
        (runLoop cmds st sc m).2.message = wallMsg ∨
        (runLoop cmds st sc m).2.message = bombMsg ∨
        (runLoop cmds st sc m).2.message = winMsg) := by
  intro cmds
  induction cmds with
  | nil => intro st sc m _; exact Or.inl rfl
  | cons c rest ih =>
    intro st sc m hlen
    have hsc : sc < m := by simp at hlen; omega
    simp only [runLoop]
    split
    · rw [if_neg (by omega : ¬sc ≥ m)]
      exact Or.inl rfl
    · split
      · have hrest := ih (executeOneCommand c.toLower st) (sc + 1) m
          (by simp at hlen ⊢; omega)
        rcases hrest with h | h
        · rw [h]
          exact executeOneCommand_message c.toLower st
        · exact Or.inr h
      · exact ih st sc m (by simp at hlen ⊢; omega)

/-- C5: with the step cap `m` (`10000` in the driver), the loop yields at
most `m` snapshots; if the expanded stream is all instructions and longer
than the cap and the run actually reaches the cap (exactly `m` snapshots
yielded), the generator's returned state is terminal and carries the
max-steps message; a stream no longer than the cap can never produce that
message (the run ends with the initial message or a collision/win message);
and the driver delivers the initial snapshot, the per-instruction snapshots
of `runLoop`, and `runLoop`'s final state whenever expansion succeeds. -/
theorem c5_step_cap :
    (∀ (fuel : Nat) (prog : String) (st : GameState) (expanded : List Char),
      expandInstructions fuel (mainCommandsOf prog)
        ⟨parseFunctionsAdvanced prog, []⟩ 0 1000 =
          some (Except.ok expanded) →
      executeCommandsStepByStep fuel prog st 10000 =
        some (st :: (runLoop expanded st 0 10000).1,
          (runLoop expanded st 0 10000).2)) ∧
    (∀ (cmds : List Char) (st : GameState) (m : Nat),
      (runLoop cmds st 0 m).1.length ≤ m) ∧
    (∀ (cmds : List Char) (st : GameState) (m : Nat),
      (∀ c ∈ cmds, c = 's' ∨ c = 'l' ∨ c = 'r') → m < cmds.length →
      (runLoop cmds st 0 m).1.length = m →
      (runLoop cmds st 0 m).2.isGameOver = true ∧
        (runLoop cmds st 0 m).2.message = capMsg m) ∧
    (∀ (cmds : List Char) (st : GameState) (m : Nat),
      cmds.length ≤ m → st.message ≠ capMsg m →
      (runLoop cmds st 0 m).2.message ≠ capMsg m) := by
  refine ⟨?_, ?_, ?_, ?_⟩
  · intro fuel prog st expanded hexp
    simp only [executeCommandsStepByStep, hexp]
  · intro cmds st m
    simpa using runLoop_length cmds st 0 m
  · intro cmds st m hbasic hlen hexec
    exact runLoop_cap cmds st 0 m hbasic (by omega) (by omega)
  · intro cmds st m hlen hmsg
    rcases runLoop_msg cmds st 0 m (by omega) with h | h | h | h <;> rw [h]
    · exact hmsg
    · exact fun hc => (capMsg_ne m).1 hc.symm
    · exact fun hc => (capMsg_ne m).2.1 hc.symm
    · exact fun hc => (capMsg_ne m).2.2 hc.symm

theorem c5_step_cap_witness :
    executeCommandsStepByStep 10 "ss" wst 10000 =
      some (wst :: (runLoop ['s', 's'] wst 0 10000).1,
        (runLoop ['s', 's'] wst 0 10000).2) ∧
    (runLoop ['l', 'l', 'l'] wst 0 2).1.length ≤ 2 ∧
    ((runLoop ['l', 'l', 'l'] wst 0 2).2.isGameOver = true ∧
      (runLoop ['l', 'l', 'l'] wst 0 2).2.message = capMsg 2) ∧
    (runLoop ['l'] wst 0 2).2.message ≠ capMsg 2 :=
  ⟨c5_step_cap.1 10 "ss" wst ['s', 's'] (by rfl),
   c5_step_cap.2.1 ['l', 'l', 'l'] wst 2,
   c5_step_cap.2.2.1 ['l', 'l', 'l'] wst 2 (by decide) (by decide) (by decide),
   c5_step_cap.2.2.2 ['l'] wst 2 (by decide) (by decide)⟩

/-! ## Claim C10: level parsing -/

/-- The lines the grid builder scans: the trimmed level text split on
newlines. -/
def levelLines (levelData : String) : List (List Char) :=
  splitOnChar '\n' (jsTrim levelData.toList)

/-- Reference reading of "the last robot marker of a row", with `x` the
column offset of the first scanned cell. -/
def rowLastU (y : Nat) : Nat → List Char → Option Position
  | _, [] => none
  | x, c :: cs =>
    match rowLastU y (x + 1) cs with
    | some p => some p
    | none => if c = 'u' then some ⟨(x : Int), (y : Int)⟩ else none

/-- Reference reading of "the last robot marker of the remaining rows". -/
def linesLastU : Nat → List (List Char) → Option Position
  | _, [] => none
  | y, l :: ls =>
    match linesLastU (y + 1) ls with
    | some p => some p
    | none => rowLastU y 0 l

theorem scanRow_pos (y : Nat) :
    ∀ (x : Nat) (l : List Char) (p : Position),
      (scanRow y x l p).2 = (rowLastU y x l).getD p := by
  intro x l
  induction l generalizing x with
  | nil => intro p; rfl
  | cons c cs ih =>
    intro p
    simp only [scanRow, rowLastU]
    rw [ih (x + 1)]
    cases hrec : rowLastU y (x + 1) cs with
    | some q => simp
    | none =>
      by_cases hc : c = 'u' <;> simp [hc]

theorem scanRows_pos :
    ∀ (ls : List (List Char)) (y : Nat) (p : Position),
      (scanRows y ls p).2 = (linesLastU y ls).getD p := by
  intro ls
  induction ls with
  | nil => intro y p; rfl
  | cons l rest ih =>
    intro y p
    simp only [scanRows, linesLastU]
    rw [ih (y + 1), scanRow_pos]
    cases hrec : linesLastU (y + 1) rest with
    | some q => simp
    | none =>
      cases hrow : rowLastU y 0 l with
      | some q => simp
      | none => simp

theorem rowLastU_none (y : Nat) :
    ∀ (x : Nat) (l : List Char), 'u' ∉ l → rowLastU y x l = none := by
  intro x l
  induction l generalizing x with
  | nil => intro _; rfl
  | cons c cs ih =>
    intro hmem
    have hc : c ≠ 'u' := fun h => hmem (h ▸ List.mem_cons_self c cs)
    simp only [rowLastU, ih (x + 1) (fun h => hmem (List.mem_cons_of_mem c h))]
    simp [hc]

theorem rowLastU_last (y : Nat) :
    ∀ (l : List Char) (x i : Nat), l.getD i ' ' = 'u' →
      (∀ j, i < j → l.getD j ' ' ≠ 'u') →
      rowLastU y x l = some ⟨((x + i : Nat) : Int), (y : Int)⟩ := by
  intro l
  induction l with
  | nil => intro x i h _; simp at h
  | cons c cs ih =>
    intro x i h hlater
    cases i with
    | zero =>
      simp only [List.getD_cons_zero] at h
      have hnone : rowLastU y (x + 1) cs = none := by
        apply rowLastU_none
        intro hmem
        obtain ⟨j, hj, hget⟩ := List.mem_iff_getElem.mp hmem
        exact hlater (j + 1) (by omega)
          (by rw [List.getD_cons_succ, List.getD_eq_getElem cs ' ' hj]
              exact hget)
      simp [rowLastU, hnone, h]
    | succ i =>
      simp only [List.getD_cons_succ] at h
      have hrec := ih (x + 1) i h
        (fun j hj => by
          have := hlater (j + 1) (by omega)
          simpa [List.getD_cons_succ] using this)
      simp only [rowLastU, hrec]
      congr 2
      omega

theorem linesLastU_none :
    ∀ (ls : List (List Char)) (y : Nat),
      (∀ l ∈ ls, 'u' ∉ l) → linesLastU y ls = none := by
  intro ls
  induction ls with
  | nil => intro y _; rfl
  | cons l rest ih =>
    intro y h
    simp only [linesLastU,
      ih (y + 1) (fun x hx => h x (List.mem_cons_of_mem l hx))]
    exact rowLastU_none y 0 l (h l (List.mem_cons_self l rest))

theorem linesLastU_last :
    ∀ (ls : List (List Char)) (y i x : Nat),
      (ls.getD i []).getD x ' ' = 'u' →
      (∀ i' x', (i < i' ∨ (i = i' ∧ x < x')) →
        (ls.getD i' []).getD x' ' ' ≠ 'u') →
      linesLastU y ls = some ⟨(x : Int), ((y + i : Nat) : Int)⟩ := by
  intro ls
  induction ls with
  | nil => intro y i x h _; simp at h
  | cons l rest ih =>
    intro y i x h hlater
    cases i with
    | zero =>
      simp only [List.getD_cons_zero] at h
      have hnone : linesLastU (y + 1) rest = none := by
        apply linesLastU_none
        intro l2 hl2 hmem
        obtain ⟨i2, hi2, hli⟩ := List.mem_iff_getElem.mp hl2
        obtain ⟨x2, hx2, hget⟩ := List.mem_iff_getElem.mp hmem
        refine hlater (i2 + 1) x2 (by omega) ?_
        rw [List.getD_cons_succ, List.getD_eq_getElem rest [] hi2, hli,
          List.getD_eq_getElem l2 ' ' hx2]
        exact hget
      have hrow : rowLastU y 0 l = some ⟨(x : Int), (y : Int)⟩ := by
        have := rowLastU_last y l 0 x h
          (fun j hj => by
            have := hlater 0 j (Or.inr ⟨rfl, hj⟩)
            simpa using this)
        simpa using this
      simp [linesLastU, hnone, hrow]
    | succ i =>
      simp only [List.getD_cons_succ] at h
      have hrec := ih (y + 1) i x h
        (fun i' x' hcmp => by
          have := hlater (i' + 1) x' (by omega)
          simpa [List.getD_cons_succ] using this)
      simp only [linesLastU, hrec]
      congr 2
      omega

theorem scanRow_no_u (y : Nat) :
    ∀ (x : Nat) (l : List Char) (p : Position), 'u' ∉ (scanRow y x l p).1 := by
  intro x l
  induction l generalizing x with
  | nil => intro p; simp [scanRow]
  | cons c cs ih =>
    intro p
    simp only [scanRow, List.mem_cons, not_or]
    refine ⟨?_, ?_⟩
    · by_cases hc : c = 'u' <;> simp [hc]
      intro h
      exact hc h.symm
    · exact fun h =>
        ih (x + 1) (if c = 'u' then ⟨(x : Int), (y : Int)⟩ else p) h

theorem scanRows_no_u :
    ∀ (ls : List (List Char)) (y : Nat) (p : Position),
      ∀ row ∈ (scanRows y ls p).1, 'u' ∉ row := by
  intro ls
  induction ls with
  | nil => intro y p row h; simp [scanRows] at h
  | cons l rest ih =>
    intro y p row h
    simp only [scanRows, List.mem_cons] at h
    rcases h with h | h
    · subst h; exact scanRow_no_u y 0 l p
    · exact ih (y + 1) (scanRow y 0 l p).2 row h

theorem normalizeRow_no_u (row : List Char) (h : 'u' ∉ row) :
    'u' ∉ normalizeRow row := by
  unfold normalizeRow
  split
  · intro hmem
    rcases List.mem_append.mp hmem with h1 | h1
    · exact h h1
    · have := List.eq_of_mem_replicate h1
      simp at this
  · exact fun hmem => h (List.mem_of_mem_take hmem)

/-- C10: the grid built by `parseLevel` never contains the robot-start
marker `u` (every occurrence is rewritten to an empty cell before the grid
is normalized), and when the trimmed level text contains several markers the
reported start position is the last one in reading order — later rows win,
and within a row later columns win. -/
theorem c10_parse_level :
    (∀ (levelData : String) (row : List Char),
      row ∈ (parseLevel levelData).1 → 'u' ∉ row) ∧
    (∀ (levelData : String) (y x : Nat),
      ((levelLines levelData).getD y []).getD x ' ' = 'u' →
      (∀ y' x', (y < y' ∨ (y = y' ∧ x < x')) →
        ((levelLines levelData).getD y' []).getD x' ' ' ≠ 'u') →
      (parseLevel levelData).2 = ⟨(x : Int), (y : Int)⟩) := by
  constructor
  · intro levelData row hrow
    simp only [parseLevel] at hrow
    split at hrow
    · rcases List.mem_append.mp hrow with h | h
      · obtain ⟨r0, hr0, rfl⟩ := List.mem_map.mp h
        exact normalizeRow_no_u r0
          (scanRows_no_u _ 0 ⟨0, 0⟩ r0 hr0)
      · have := List.eq_of_mem_replicate h
        subst this
        intro hmem
        have := List.eq_of_mem_replicate hmem
        simp at this
    · have hrow2 := List.mem_of_mem_take hrow
      obtain ⟨r0, hr0, rfl⟩ := List.mem_map.mp hrow2
      exact normalizeRow_no_u r0 (scanRows_no_u _ 0 ⟨0, 0⟩ r0 hr0)
  · intro levelData y x hu hlater
    have hscan := scanRows_pos (levelLines levelData) 0 ⟨0, 0⟩
    have hlast := linesLastU_last (levelLines levelData) 0 y x hu hlater
    show (scanRows 0 (levelLines levelData) ⟨0, 0⟩).2 = _
    rw [hscan, hlast]
    simp

theorem c10_parse_level_witness :
    (∀ row ∈ (parseLevel "u.u\n.u.").1, 'u' ∉ row) ∧
    (parseLevel "u.u\n.u.").2 = ⟨1, 1⟩ :=
  ⟨fun row h => c10_parse_level.1 "u.u\n.u." row h,
   c10_parse_level.2 "u.u\n.u." 1 1 (by decide)
     (by
       intro y' x' hcmp
       match y' with
       | 0 => omega
       | 1 =>
         have hx : 2 ≤ x' := by omega
         have hrow : (levelLines "u.u\n.u.").getD 1 [] = ['.', 'u', '.'] :=
           by decide
         rw [hrow]
         rcases Nat.lt_or_ge x' 3 with h3 | h3
         · have : x' = 2 := by omega
           subst this
           decide
         · rw [List.getD_eq_default _ _ (by simpa using h3)]
           decide
       | y'' + 2 =>
         have hlen : (levelLines "u.u\n.u.").length = 2 := by decide
         have hnil : (levelLines "u.u\n.u.").getD (y'' + 2) [] = [] :=
           List.getD_eq_default _ _ (by omega)
         rw [hnil, List.getD_nil]
         decide)⟩

/-! ## Claim C2: expression evaluation -/

theorem splitOnChar_ne_nil (sep : Char) :
    ∀ l : List Char, splitOnChar sep l ≠ [] := by
  intro l
  cases l with
  | nil => simp [splitOnChar]
  | cons c cs =>
    simp only [splitOnChar]
    split
    · simp
    · split <;> simp

theorem splitOnChar_sep_not_mem (sep : Char) :
    ∀ (l : List Char) (p : List Char), p ∈ splitOnChar sep l → sep ∉ p := by
  intro l
  induction l with
  | nil =>
    intro p hp
    simp [splitOnChar] at hp
    simp [hp]
  | cons c cs ih =>
    intro p hp
    simp only [splitOnChar] at hp
    by_cases hc : c = sep
    · rw [if_pos hc] at hp
      rcases List.mem_cons.mp hp with h | h
      · simp [h]
      · exact ih p h
    · rw [if_neg hc] at hp
      rcases hsp : splitOnChar sep cs with _ | ⟨q, qs⟩
      · exact absurd hsp (splitOnChar_ne_nil sep cs)
      · rw [hsp] at hp
        rcases List.mem_cons.mp hp with h | h
        · subst h
          intro hmem
          rcases List.mem_cons.mp hmem with h2 | h2
          · exact hc h2.symm
          · exact ih q (hsp ▸ List.mem_cons_self q qs) h2
        · exact ih p (hsp ▸ List.mem_cons_of_mem q h)

theorem splitOnChar_mem_chars (sep : Char) :
    ∀ (l p : List Char) (x : Char),
      p ∈ splitOnChar sep l → x ∈ p → x ∈ l := by
  intro l
  induction l with
  | nil =>
    intro p x hp hx
    simp [splitOnChar] at hp
    subst hp
    simp at hx
  | cons c cs ih =>
    intro p x hp hx
    simp only [splitOnChar] at hp
    by_cases hc : c = sep
    · rw [if_pos hc] at hp
      rcases List.mem_cons.mp hp with h | h
      · subst h; simp at hx
      · exact List.mem_cons_of_mem c (ih p x h hx)
    · rw [if_neg hc] at hp
      rcases hsp : splitOnChar sep cs with _ | ⟨q, qs⟩
      · exact absurd hsp (splitOnChar_ne_nil sep cs)
      · rw [hsp] at hp
        rcases List.mem_cons.mp hp with h | h
        · subst h
          rcases List.mem_cons.mp hx with h2 | h2
          · simp [h2]
          · exact List.mem_cons_of_mem c
              (ih q x (hsp ▸ List.mem_cons_self q qs) h2)
        · exact List.mem_cons_of_mem c
            (ih p x (hsp ▸ List.mem_cons_of_mem q h) hx)

theorem splitOnChar_no_sep (sep : Char) :
    ∀ l : List Char, sep ∉ l → splitOnChar sep l = [l] := by
  intro l
  induction l with
  | nil => intro _; rfl
  | cons c cs ih =>
    intro h
    have hc : ¬(c = sep) := fun he => h (he ▸ List.mem_cons_self c cs)
    simp only [splitOnChar, if_neg hc,
      ih (fun hm => h (List.mem_cons_of_mem c hm))]

theorem dropWhile_idem (p : Char → Bool) :
    ∀ l : List Char,
      List.dropWhile p (List.dropWhile p l) = List.dropWhile p l := by
  intro l
  induction l with
  | nil => rfl
  | cons c cs ih =>
    rw [List.dropWhile_cons]
    by_cases h : p c = true
    · rw [if_pos h]; exact ih
    · rw [if_neg h, List.dropWhile_cons, if_neg h]

theorem dropWhile_eq_self_of_prefix (p : Char → Bool) :
    ∀ (a b : List Char), List.dropWhile p a = a → b <+: a →
      List.dropWhile p b = b := by
  intro a b ha hpre
  cases b with
  | nil => rfl
  | cons x xs =>
    obtain ⟨t, ht⟩ := hpre
    rw [← ht, List.cons_append, List.dropWhile_cons] at ha
    by_cases hx : p x = true
    · exfalso
      rw [if_pos hx] at ha
      have hlen := congrArg List.length ha
      have hle := (List.dropWhile_sublist (l := xs ++ t) p).length_le
      simp at hlen hle
      omega
    · rw [List.dropWhile_cons, if_neg hx]

theorem jsTrim_no_leading (s : List Char) :
    List.dropWhile isJsWs (jsTrim s) = jsTrim s := by
  unfold jsTrim
  set a := List.dropWhile isJsWs s with ha
  have haa : List.dropWhile isJsWs a = a := dropWhile_idem isJsWs s
  refine dropWhile_eq_self_of_prefix isJsWs a _ haa ?_
  rw [← List.reverse_suffix]
  simp only [List.reverse_reverse]
  exact List.dropWhile_suffix isJsWs

theorem jsTrim_idem (s : List Char) : jsTrim (jsTrim s) = jsTrim s := by
  have h1 := jsTrim_no_leading s
  show ((List.dropWhile isJsWs (jsTrim s)).reverse.dropWhile isJsWs).reverse =
    jsTrim s
  rw [h1]
  have h2 : (jsTrim s).reverse =
      List.dropWhile isJsWs ((List.dropWhile isJsWs s).reverse) := by
    unfold jsTrim
    rw [List.reverse_reverse]
  rw [h2, dropWhile_idem, ← h2, List.reverse_reverse]

theorem jsTrim_subset (s : List Char) : ∀ x, x ∈ jsTrim s → x ∈ s := by
  intro x hx
  unfold jsTrim at hx
  rw [List.mem_reverse] at hx
  have h1 := (List.dropWhile_sublist isJsWs).mem hx
  rw [List.mem_reverse] at h1
  exact (List.dropWhile_sublist isJsWs).mem h1

theorem isSingleUpper_of_sep (l : List Char) (c : Char) (hc : c ∈ l)
    (hcu : isUpperAZ c = false) : isSingleUpper l = false := by
  cases l with
  | nil => rfl
  | cons x xs =>
    cases xs with
    | nil =>
      rcases List.mem_cons.mp hc with h | h
      · subst h; simpa [isSingleUpper] using hcu
      · simp at h
    | cons y ys => rfl

theorem upperAZ_facts (c : Char) (h : isUpperAZ c = true) :
    isJsWs c = false ∧ isDigitChar c = false ∧ c ≠ '-' ∧ c ≠ '+' := by
  simp only [isUpperAZ, Bool.and_eq_true, decide_eq_true_eq] at h
  obtain ⟨h1, h2⟩ := h
  have hn1 : (65 : Nat) ≤ c.val.toNat := UInt32.le_def.mp (Char.le_def.mp h1)
  have hn2 : c.val.toNat ≤ (90 : Nat) := UInt32.le_def.mp (Char.le_def.mp h2)
  refine ⟨?_, ?_, ?_, ?_⟩
  · rw [Bool.eq_false_iff]
    intro hws
    simp only [isJsWs, Bool.or_eq_true, decide_eq_true_eq] at hws
    rcases hws with he | he | he | he | he | he <;>
      (subst he; exact absurd hn1 (by decide))
  · rw [Bool.eq_false_iff]
    intro hd
    simp only [isDigitChar, Bool.and_eq_true, decide_eq_true_eq] at hd
    have h9 : c.val.toNat ≤ (57 : Nat) :=
      UInt32.le_def.mp (Char.le_def.mp hd.2)
    omega
  · intro he; subst he; exact absurd hn1 (by decide)
  · intro he; subst he; exact absurd hn1 (by decide)

theorem jsTrim_single (c : Char) (h : isJsWs c = false) : jsTrim [c] = [c] := by
  unfold jsTrim
  rw [List.dropWhile_cons, if_neg (by simp [h])]
  simp [List.dropWhile_cons, h]

theorem parseIntJS_single_upper (c : Char) (h : isUpperAZ c = true) :
    parseIntJS [c] = none := by
  obtain ⟨hws, hdig, hminus, hplus⟩ := upperAZ_facts c h
  have ht : List.dropWhile isJsWs [c] = [c] := by
    rw [List.dropWhile_cons, if_neg (by simp [hws])]
  simp only [parseIntJS, ht, List.head?_cons, Option.some.injEq]
  rw [if_neg (by simp [hminus, hplus])]
  split
  · rfl
  · rename_i m hm
    exfalso
    split at hm
    · rename_i x rest heq
      simp at heq
    · rename_i heq
      obtain ⟨h1, h2⟩ := List.cons.inj heq
      rw [← h1, if_neg (by simp [hdig])] at hm
      exact Option.noConfusion hm
    · rename_i heq
      simp at heq

theorem evalE_nosep (argv : List (List Char × ArgValue)) (e : List Char)
    (hplus : '+' ∉ jsTrim e) (hminus : '-' ∉ jsTrim e) (f g : Nat) :
    evalE argv (f + 1) e = evalE argv (g + 1) e := by
  simp only [evalE]
  have hcp : (jsTrim e).contains '+' = false := by simpa using hplus
  have hcm : (jsTrim e).contains '-' = false := by simpa using hminus
  cases hpi : parseIntJS (jsTrim e) <;> simp only [hpi, hcp, hcm] <;> rfl

theorem splitOnChar_piece_nosep (sep : Char) (l a : List Char)
    (hmem : a ∈ splitOnChar sep l) (x : Char) (hx : x ∈ jsTrim a) :
    x ∈ l ∧ x ≠ sep := by
  have hxa := jsTrim_subset a x hx
  exact ⟨splitOnChar_mem_chars sep l a x hmem hxa,
    fun he => splitOnChar_sep_not_mem sep l a hmem (he ▸ hxa)⟩

theorem evalE_noplus (argv : List (List Char × ArgValue)) (e : List Char)
    (hplus : '+' ∉ jsTrim e) (f g : Nat) :
    evalE argv (f + 2) e = evalE argv (g + 2) e := by
  have hcpF : ¬((jsTrim e).contains '+' = true) := by simpa using hplus
  show evalE argv ((f + 1) + 1) e = evalE argv ((g + 1) + 1) e
  conv_lhs => rw [evalE]
  conv_rhs => rw [evalE]
  cases hpi : parseIntJS (jsTrim e) with
  | some n => simp only [hpi]
  | none =>
    simp only [hpi]
    by_cases hsu : isSingleUpper (jsTrim e) = true
    · simp only [hsu, if_true]
    · rw [if_neg hsu, if_neg hsu, if_neg hcpF, if_neg hcpF]
      by_cases hcm : (jsTrim e).contains '-' = true
      · rw [if_pos hcm, if_pos hcm]
        rcases hsp : splitOnChar '-' (jsTrim e) with _ | ⟨a, _ | ⟨b, _ | _⟩⟩ <;>
          simp only [hsp]
        have hma : a ∈ splitOnChar '-' (jsTrim e) := by rw [hsp]; simp
        have hmb : b ∈ splitOnChar '-' (jsTrim e) := by rw [hsp]; simp
        rw [evalE_nosep argv (jsTrim a)
            (fun hx => hplus ((splitOnChar_piece_nosep '-' _ a hma '+'
              ((jsTrim_idem a).symm ▸ hx)).1))
            (fun hx => (splitOnChar_piece_nosep '-' _ a hma '-'
              ((jsTrim_idem a).symm ▸ hx)).2 rfl) f g,
          evalE_nosep argv (jsTrim b)
            (fun hx => hplus ((splitOnChar_piece_nosep '-' _ b hmb '+'
              ((jsTrim_idem b).symm ▸ hx)).1))
            (fun hx => (splitOnChar_piece_nosep '-' _ b hmb '-'
              ((jsTrim_idem b).symm ▸ hx)).2 rfl) f g]
      · rw [if_neg hcm, if_neg hcm]

theorem evalE_ge3 (argv : List (List Char × ArgValue)) (e : List Char)
    (f g : Nat) : evalE argv (f + 3) e = evalE argv (g + 3) e := by
  show evalE argv ((f + 2) + 1) e = evalE argv ((g + 2) + 1) e
  conv_lhs => rw [evalE]
  conv_rhs => rw [evalE]
  cases hpi : parseIntJS (jsTrim e) with
  | some n => simp only [hpi]
  | none =>
    simp only [hpi]
    by_cases hsu : isSingleUpper (jsTrim e) = true
    · simp only [hsu, if_true]
    · rw [if_neg hsu, if_neg hsu]
      by_cases hcp : (jsTrim e).contains '+' = true
      · rw [if_pos hcp, if_pos hcp]
        refine congrArg List.sum (List.map_congr_left ?_)
        intro p hp
        exact evalE_noplus argv (jsTrim p)
          (fun hx => (splitOnChar_piece_nosep '+' _ p hp '+'
            ((jsTrim_idem p).symm ▸ hx)).2 rfl) f g
      · rw [if_neg hcp, if_neg hcp]
        have hplus : '+' ∉ jsTrim e := by simpa using hcp
        by_cases hcm : (jsTrim e).contains '-' = true
        · rw [if_pos hcm, if_pos hcm]
          rcases hsp : splitOnChar '-' (jsTrim e) with
            _ | ⟨a, _ | ⟨b, _ | _⟩⟩ <;> simp only [hsp]
          have hma : a ∈ splitOnChar '-' (jsTrim e) := by rw [hsp]; simp
          have hmb : b ∈ splitOnChar '-' (jsTrim e) := by rw [hsp]; simp
          rw [evalE_noplus argv (jsTrim a)
              (fun hx => hplus ((splitOnChar_piece_nosep '-' _ a hma '+'
                ((jsTrim_idem a).symm ▸ hx)).1)) f g,
            evalE_noplus argv (jsTrim b)
              (fun hx => hplus ((splitOnChar_piece_nosep '-' _ b hmb '+'
                ((jsTrim_idem b).symm ▸ hx)).1)) f g]
        · rw [if_neg hcm, if_neg hcm]

theorem evaluateExpression_eq_evalE (e : List Char) (ctx : ExecutionContext)
    (f : Nat) : evaluateExpression e ctx = evalE ctx.argValues (f + 3) e :=
  evalE_ge3 ctx.argValues e e.length f

theorem evalE_trim (argv : List (List Char × ArgValue)) (f : Nat)
    (e : List Char) : evalE argv f (jsTrim e) = evalE argv f e := by
  cases f with
  | zero => rfl
  | succ f =>
    conv_lhs => rw [evalE]
    conv_rhs => rw [evalE]
    simp only [jsTrim_idem]

/-- C2 (amended): a single uppercase letter evaluates to its numeric binding
(0 when unbound or bound to an instruction fragment); and provided the
trimmed expression does not begin with a `parseInt`-parseable integer (which
would be returned directly, ignoring everything after the digits), a
`+`-delimited expression evaluates to the sum of its evaluated terms, and —
provided additionally that the expression contains no `+` — a `-`-split
into exactly two terms evaluates to the left minus the right term, and a
`-`-split into three or more terms evaluates to 0. -/
theorem c2_expression_evaluation :
    (∀ (ctx : ExecutionContext) (c : Char) (n : Int), isUpperAZ c = true →
      ((ctx.argValues.lookup [c] = some (ArgValue.num n) →
        evaluateExpression [c] ctx = n) ∧
       ((∀ v : Int, ctx.argValues.lookup [c] ≠ some (ArgValue.num v)) →
        evaluateExpression [c] ctx = 0))) ∧
    (∀ (ctx : ExecutionContext) (e : List Char),
      parseIntJS (jsTrim e) = none → '+' ∈ jsTrim e →
      evaluateExpression e ctx =
        ((splitOnChar '+' (jsTrim e)).map
          (fun p => evaluateExpression p ctx)).sum) ∧
    (∀ (ctx : ExecutionContext) (e a b : List Char),
      parseIntJS (jsTrim e) = none → '+' ∉ jsTrim e →
      splitOnChar '-' (jsTrim e) = [a, b] →
      evaluateExpression e ctx =
        evaluateExpression a ctx - evaluateExpression b ctx) ∧
    (∀ (ctx : ExecutionContext) (e : List Char),
      parseIntJS (jsTrim e) = none → '+' ∉ jsTrim e →
      2 < (splitOnChar '-' (jsTrim e)).length →
      evaluateExpression e ctx = 0) := by
  refine ⟨?_, ?_, ?_, ?_⟩
  · intro ctx c n hup
    have hws := (upperAZ_facts c hup).1
    have htr : jsTrim [c] = [c] := jsTrim_single c hws
    have hred : evaluateExpression [c] ctx =
        (match ctx.argValues.lookup [c] with
         | some (ArgValue.num v) => v
         | _ => 0) := by
      have hL : evaluateExpression [c] ctx =
          evalE ctx.argValues (([c].length + 2) + 1) [c] := rfl
      rw [hL]
      conv_lhs => rw [evalE]
      simp only [htr, parseIntJS_single_upper c hup]
      rw [if_pos (by simpa [isSingleUpper] using hup)]
    constructor
    · intro hlk
      rw [hred, hlk]
    · intro hlk
      rw [hred]
      cases hv : ctx.argValues.lookup [c] with
      | none => rfl
      | some av =>
        cases av with
        | num v => exact absurd hv (hlk v)
        | str s => rfl
  · intro ctx e hpi hin
    have hL : evaluateExpression e ctx =
        evalE ctx.argValues ((e.length + 2) + 1) e := rfl
    rw [hL]
    conv_lhs => rw [evalE]
    simp only [hpi]
    have hsu : isSingleUpper (jsTrim e) = false :=
      isSingleUpper_of_sep _ '+' hin (by decide)
    rw [if_neg (by simp [hsu]), if_pos (by simpa using hin)]
    refine congrArg List.sum (List.map_congr_left ?_)
    intro p hp
    have h1 : evaluateExpression p ctx =
        evalE ctx.argValues (p.length + 3) p := rfl
    rw [h1, ← evalE_trim ctx.argValues (p.length + 3) p]
    have hnp : '+' ∉ jsTrim (jsTrim p) := by
      rw [jsTrim_idem]
      exact fun hx => (splitOnChar_piece_nosep '+' _ p hp '+' hx).2 rfl
    exact evalE_noplus ctx.argValues (jsTrim p) hnp e.length (p.length + 1)
  · intro ctx e a b hpi hplus hsp
    have hminus_mem : '-' ∈ jsTrim e := by
      by_contra hnm
      rw [splitOnChar_no_sep '-' _ hnm] at hsp
      simp at hsp
    have hL : evaluateExpression e ctx =
        evalE ctx.argValues ((e.length + 2) + 1) e := rfl
    rw [hL]
    conv_lhs => rw [evalE]
    simp only [hpi]
    have hsu : isSingleUpper (jsTrim e) = false :=
      isSingleUpper_of_sep _ '-' hminus_mem (by decide)
    rw [if_neg (by simp [hsu]), if_neg (by simpa using hplus),
      if_pos (by simpa using hminus_mem)]
    simp only [hsp]
    have hma : a ∈ splitOnChar '-' (jsTrim e) := by rw [hsp]; simp
    have hmb : b ∈ splitOnChar '-' (jsTrim e) := by rw [hsp]; simp
    have ha1 : evaluateExpression a ctx =
        evalE ctx.argValues (a.length + 3) a := rfl
    have hb1 : evaluateExpression b ctx =
        evalE ctx.argValues (b.length + 3) b := rfl
    rw [ha1, hb1, ← evalE_trim ctx.argValues (a.length + 3) a,
      ← evalE_trim ctx.argValues (b.length + 3) b]
    rw [evalE_noplus ctx.argValues (jsTrim a)
        (by rw [jsTrim_idem]
            exact fun hx =>
              hplus (splitOnChar_piece_nosep '-' _ a hma '+' hx).1)
        e.length (a.length + 1),
      evalE_noplus ctx.argValues (jsTrim b)
        (by rw [jsTrim_idem]
            exact fun hx =>
              hplus (splitOnChar_piece_nosep '-' _ b hmb '+' hx).1)
        e.length (b.length + 1)]
  · intro ctx e hpi hplus hlen
    have hminus_mem : '-' ∈ jsTrim e := by
      by_contra hnm
      rw [splitOnChar_no_sep '-' _ hnm] at hlen
      simp at hlen
    have hL : evaluateExpression e ctx =
        evalE ctx.argValues ((e.length + 2) + 1) e := rfl
    rw [hL]
    conv_lhs => rw [evalE]
    simp only [hpi]
    have hsu : isSingleUpper (jsTrim e) = false :=
      isSingleUpper_of_sep _ '-' hminus_mem (by decide)
    rw [if_neg (by simp [hsu]), if_neg (by simpa using hplus),
      if_pos (by simpa using hminus_mem)]
    rcases hsp : splitOnChar '-' (jsTrim e) with _ | ⟨a, _ | ⟨b, _ | _⟩⟩ <;>
      rw [hsp] at hlen <;> simp only [hsp] <;> simp at hlen

theorem c2_expression_evaluation_witness :
    evaluateExpression ['A'] ⟨[], [(['A'], ArgValue.num 7)]⟩ = 7 ∧
    evaluateExpression ['A', '+', 'B'] ⟨[], []⟩ =
      ((splitOnChar '+' (jsTrim ['A', '+', 'B'])).map
        (fun p => evaluateExpression p ⟨[], []⟩)).sum ∧
    evaluateExpression ['A', '-', 'B'] ⟨[], []⟩ =
      evaluateExpression ['A'] ⟨[], []⟩ - evaluateExpression ['B'] ⟨[], []⟩ ∧
    evaluateExpression ['A', '-', 'B', '-', 'C'] ⟨[], []⟩ = 0 :=
  ⟨(c2_expression_evaluation.1 ⟨[], [(['A'], ArgValue.num 7)]⟩ 'A' 7
      (by decide)).1 (by decide),
   c2_expression_evaluation.2.1 ⟨[], []⟩ ['A', '+', 'B']
     (by decide) (by decide),
   c2_expression_evaluation.2.2.1 ⟨[], []⟩ ['A', '-', 'B'] ['A'] ['B']
     (by decide) (by decide) (by decide),
   c2_expression_evaluation.2.2.2 ⟨[], []⟩ ['A', '-', 'B', '-', 'C']
     (by decide) (by decide) (by decide)⟩

def c2ctx : ExecutionContext :=
  ⟨[], [(['A'], ArgValue.num 0), (['B'], ArgValue.num 0),
    (['C'], ArgValue.num 1)]⟩

/-- Counterexample to C2 as stated: `1+2` is a `+`-delimited sequence of
terms yet evaluates to 1 (JavaScript `parseInt` returns the leading integer,
short-circuiting the sum rule), not to 1 + 2 = 3; and with A=0, B=0, C=1 the
expression `A-B+C` has exactly two `-`-delimited terms (`A` and `B+C`) yet
evaluates to 1, not to `A` minus `B+C` = −1, because the `+` rule is applied
first. -/
theorem c2_expression_evaluation_counterexample :
    evaluateExpression ['1', '+', '2'] ⟨[], []⟩ = 1 ∧
    evaluateExpression ['1'] ⟨[], []⟩ + evaluateExpression ['2'] ⟨[], []⟩ = 3 ∧
    evaluateExpression ['A', '-', 'B', '+', 'C'] c2ctx = 1 ∧
    evaluateExpression ['A'] c2ctx -
      evaluateExpression ['B', '+', 'C'] c2ctx = -1 := by
  decide
